import Mathlib

/-!
Verification of the feature-importance / consensus / risk-threshold pipeline
of the healthcare-cost analysis repository
(notebook `4_feature_importance_analysis.ipynb`).

The notebook's numeric values are pandas/numpy 64-bit floats.  We embed them
as exact rationals together with the IEEE special values the notebook's
operations can produce (`NaN`, `±Inf`), so that the pandas semantics of
`0/0 = NaN`, `x/0 = ±Inf`, NaN-propagating arithmetic, NaN-skipping
`mean`/`min`/`max`, and NaN-last sorting are represented faithfully.
-/

/-- A pandas/numpy scalar: an exact finite value, `NaN`, or a signed
infinity.  `fin q` stands for the float holding the real value `q`. -/
inductive PF where
  | nan : PF
  | pinf : PF
  | ninf : PF
  | fin : ℚ → PF
  deriving DecidableEq, Repr

namespace PF

/-- IEEE subtraction on pandas scalars (`NaN` propagates, `Inf − Inf = NaN`). -/
def sub : PF → PF → PF
  | nan, _ => nan
  | _, nan => nan
  | pinf, pinf => nan
  | pinf, _ => pinf
  | ninf, ninf => nan
  | ninf, _ => ninf
  | fin _, pinf => ninf
  | fin _, ninf => pinf
  | fin a, fin b => fin (a - b)

/-- IEEE division on pandas scalars: `0/0 = NaN`, `a/0 = ±Inf` for `a ≠ 0`,
`Inf/Inf = NaN`, `NaN` propagates. -/
def div : PF → PF → PF
  | nan, _ => nan
  | _, nan => nan
  | pinf, pinf => nan
  | pinf, ninf => nan
  | ninf, pinf => nan
  | ninf, ninf => nan
  | pinf, fin b => if 0 ≤ b then pinf else ninf
  | ninf, fin b => if 0 ≤ b then ninf else pinf
  | fin _, pinf => fin 0
  | fin _, ninf => fin 0
  | fin a, fin b =>
      if b = 0 then (if a = 0 then nan else if 0 < a then pinf else ninf)
      else fin (a / b)

end PF

/-- The finite values of a list of pandas scalars, in order (what pandas
keeps when `skipna=True` drops `NaN`; infinities are not dropped, but the
columns handled here never contain them, so collecting `fin` is exact). -/
def finVals (l : List PF) : List ℚ :=
  l.filterMap (fun x => match x with | PF.fin q => some q | _ => none)

/-- Minimum of a nonempty rational list (`0` on the empty list, which the
callers never hit): pandas `Series.min`. -/
def listMin : List ℚ → ℚ
  | [] => 0
  | x :: t => t.foldl min x

/-- Maximum of a nonempty rational list (`0` on the empty list): pandas
`Series.max`. -/
def listMax : List ℚ → ℚ
  | [] => 0
  | x :: t => t.foldl max x

/-- pandas `Series.min` with `skipna=True`: minimum of the non-`NaN`
entries, `NaN` when there is none. -/
def pfMin (l : List PF) : PF :=
  match finVals l with
  | [] => PF.nan
  | x :: t => PF.fin (listMin (x :: t))

/-- pandas `Series.max` with `skipna=True`. -/
def pfMax (l : List PF) : PF :=
  match finVals l with
  | [] => PF.nan
  | x :: t => PF.fin (listMax (x :: t))

/-- Mean of a rational list (`sum / length`). -/
def listMeanQ (l : List ℚ) : ℚ := l.sum / l.length

/-- pandas `mean` with `skipna=True`: the mean of the non-`NaN` entries,
`NaN` when every entry is `NaN` (mean of an empty selection).  An infinity
among the non-skipped entries dominates the mean as in IEEE arithmetic. -/
def pfMean (l : List PF) : PF :=
  if PF.pinf ∈ l ∧ PF.ninf ∈ l then PF.nan
  else if PF.pinf ∈ l then PF.pinf
  else if PF.ninf ∈ l then PF.ninf
  else match finVals l with
    | [] => PF.nan
    | x :: t => PF.fin (listMeanQ (x :: t))

theorem foldlMin_le_init (t : List ℚ) : ∀ x : ℚ, t.foldl min x ≤ x := by
  induction t with
  | nil => intro x; simp
  | cons b t ih => intro x; exact le_trans (ih (min x b)) (min_le_left x b)

theorem foldlMin_le_mem (t : List ℚ) : ∀ x y : ℚ, y ∈ t → t.foldl min x ≤ y := by
  induction t with
  | nil => intro x y hy; cases hy
  | cons a t ih =>
    intro x y hy
    rcases List.mem_cons.mp hy with h | h
    · subst h
      exact le_trans (foldlMin_le_init t (min x y)) (min_le_right x y)
    · exact ih (min x a) y h

theorem listMin_le {l : List ℚ} {y : ℚ} (hy : y ∈ l) : listMin l ≤ y := by
  match l with
  | [] => cases hy
  | x :: t =>
    rcases List.mem_cons.mp hy with h | h
    · subst h; exact foldlMin_le_init t y
    · exact foldlMin_le_mem t x y h

theorem init_le_foldlMax (t : List ℚ) : ∀ x : ℚ, x ≤ t.foldl max x := by
  induction t with
  | nil => intro x; simp
  | cons b t ih => intro x; exact le_trans (le_max_left x b) (ih (max x b))

theorem mem_le_foldlMax (t : List ℚ) : ∀ x y : ℚ, y ∈ t → y ≤ t.foldl max x := by
  induction t with
  | nil => intro x y hy; cases hy
  | cons a t ih =>
    intro x y hy
    rcases List.mem_cons.mp hy with h | h
    · subst h
      exact le_trans (le_max_right x y) (init_le_foldlMax t (max x y))
    · exact ih (max x a) y h

theorem le_listMax {l : List ℚ} {y : ℚ} (hy : y ∈ l) : y ≤ listMax l := by
  match l with
  | [] => cases hy
  | x :: t =>
    rcases List.mem_cons.mp hy with h | h
    · subst h; exact init_le_foldlMax t y
    · exact mem_le_foldlMax t x y h

/-- Insert `x` into `l`, skipping past the elements strictly sort-greater
than `x` (comparator `gt`): the insertion step of a stable descending sort. -/
def insSortedInto (gt : α → α → Bool) (x : α) : List α → List α
  | [] => [x]
  | y :: t => if gt y x then y :: insSortedInto gt x t else x :: y :: t

/-- Stable descending insertion sort by the comparator `gt`.  Models pandas
`sort_values(ascending=False)`: numpy's quicksort runs as a plain (stable)
insertion sort at the array sizes the notebook sorts (its feature count is
below numpy's partition threshold). -/
def insSortBy (gt : α → α → Bool) : List α → List α
  | [] => []
  | x :: t => insSortedInto gt x (insSortBy gt t)

theorem insSortedInto_perm (gt : α → α → Bool) (x : α) (l : List α) :
    (insSortedInto gt x l).Perm (x :: l) := by
  induction l with
  | nil => rfl
  | cons y t ih =>
    by_cases h : gt y x = true
    · simpa [insSortedInto, h] using
        ((ih.cons y).trans (List.Perm.swap x y t))
    · simp only [insSortedInto, h]
      rfl

theorem insSortBy_perm (gt : α → α → Bool) (l : List α) : (insSortBy gt l).Perm l := by
  induction l with
  | nil => rfl
  | cons x t ih =>
    exact (insSortedInto_perm gt x (insSortBy gt t)).trans (ih.cons x)

theorem mem_insSortedInto (gt : α → α → Bool) (x : α) (l : List α) (z : α) :
    z ∈ insSortedInto gt x l ↔ z = x ∨ z ∈ l :=
  by simpa using (insSortedInto_perm gt x l).mem_iff

/-- The order in which a correct stable descending sort must emit `a` before
`b`: either `a` is strictly sort-greater, or they tie and `a` held the
smaller position `p` in the input. -/
def StablyBefore (gt : α → α → Bool) (p : α → ℕ) (a b : α) : Prop :=
  gt a b = true ∨ (gt a b = false ∧ gt b a = false ∧ p a < p b)

theorem insSortedInto_pairwise (gt : α → α → Bool) (p : α → ℕ)
    (h1 : ∀ x y z : α, gt y x = false → gt z y = false → gt z x = false)
    (h2 : ∀ x y z : α, gt y z = true → gt y x = false → gt x z = true)
    (x : α) (l : List α)
    (hl : l.Pairwise (StablyBefore gt p)) (hpos : ∀ y ∈ l, p x < p y) :
    (insSortedInto gt x l).Pairwise (StablyBefore gt p) := by
  induction l with
  | nil => simp [insSortedInto, List.pairwise_singleton]
  | cons y t ih =>
    rcases List.pairwise_cons.mp hl with ⟨hyt, ht⟩
    by_cases h : gt y x = true
    · simp only [insSortedInto, h, if_true]
      refine List.pairwise_cons.mpr ⟨?_, ?_⟩
      · intro z hz
        rcases (mem_insSortedInto gt x t z).mp hz with hzx | hzt
        · subst hzx; exact Or.inl h
        · exact hyt z hzt
      · exact ih ht (fun y' hy' => hpos y' (List.mem_cons_of_mem y hy'))
    · have hyx : gt y x = false := by
        cases hxy : gt y x
        · rfl
        · exact absurd hxy h
      simp only [insSortedInto, h, if_false]
      refine List.pairwise_cons.mpr ⟨?_, List.pairwise_cons.mpr ⟨hyt, ht⟩⟩
      intro z hz
      rcases List.mem_cons.mp hz with hzy | hzt
      · subst hzy
        by_cases hxz : gt x z = true
        · exact Or.inl hxz
        · refine Or.inr ⟨?_, hyx, hpos z (List.mem_cons_self z t)⟩
          cases hxy : gt x z
          · rfl
          · exact absurd hxy hxz
      · rcases hyt z hzt with hgt | ⟨hyz, hzy, _⟩
        · exact Or.inl (h2 x y z hgt hyx)
        · by_cases hxz : gt x z = true
          · exact Or.inl hxz
          · have hxz' : gt x z = false := by
              cases hc : gt x z
              · rfl
              · exact absurd hc hxz
            exact Or.inr ⟨hxz', h1 x y z hyx hzy,
              hpos z (List.mem_cons_of_mem y hzt)⟩

theorem insSortBy_pairwise (gt : α → α → Bool) (p : α → ℕ)
    (h1 : ∀ x y z : α, gt y x = false → gt z y = false → gt z x = false)
    (h2 : ∀ x y z : α, gt y z = true → gt y x = false → gt x z = true)
    (l : List α) (hl : l.Pairwise (fun a b => p a < p b)) :
    (insSortBy gt l).Pairwise (StablyBefore gt p) := by
  induction l with
  | nil => simp [insSortBy]
  | cons x t ih =>
    rcases List.pairwise_cons.mp hl with ⟨hxt, ht⟩
    refine insSortedInto_pairwise gt p h1 h2 x (insSortBy gt t) (ih ht) ?_
    intro y hy
    exact hxt y ((insSortBy_perm gt t).mem_iff.mp hy)

theorem stablyBefore_sorted (gt : α → α → Bool) (p : α → ℕ)
    (hasym : ∀ a b : α, gt a b = true → gt b a = false)
    {l : List α} (h : l.Pairwise (StablyBefore gt p)) :
    l.Pairwise (fun a b => gt b a = false) := by
  refine h.imp ?_
  intro a b hab
  rcases hab with hgt | ⟨_, hba, _⟩
  · exact hasym a b hgt
  · exact hba

/-- Sort key placing pandas scalars in `sort_values(ascending=False)` order:
`+Inf` above finite values above `-Inf`, with `NaN` always last
(`na_position='last'`). -/
def pfKey : PF → Lex (ℚ × ℚ)
  | PF.nan => toLex (0, 0)
  | PF.ninf => toLex (1, 0)
  | PF.fin q => toLex (2, q)
  | PF.pinf => toLex (3, 0)

/-- `a` strictly precedes `b` in a descending pandas sort. -/
def pfGt (a b : PF) : Bool := decide (pfKey b < pfKey a)

theorem pfGt_le_trans (x y z : PF) (h1 : pfGt y x = false) (h2 : pfGt z y = false) :
    pfGt z x = false := by
  simp only [pfGt, decide_eq_false_iff_not, not_lt] at h1 h2 ⊢
  exact le_trans h2 h1

theorem pfGt_gt_of_ge_of_gt (x y z : PF) (h1 : pfGt y z = true) (h2 : pfGt y x = false) :
    pfGt x z = true := by
  simp only [pfGt, decide_eq_true_eq, decide_eq_false_iff_not, not_lt] at h1 h2 ⊢
  exact lt_of_lt_of_le h1 h2

theorem pfGt_asymm (a b : PF) (h : pfGt a b = true) : pfGt b a = false := by
  simp only [pfGt, decide_eq_true_eq, decide_eq_false_iff_not, not_lt] at h ⊢
  exact le_of_lt h

theorem pfGt_fin (a b : ℚ) : pfGt (PF.fin a) (PF.fin b) = decide (b < a) := by
  simp [pfGt, pfKey, Prod.Lex.lt_iff]

/-- Index alignment performed by `pd.DataFrame({...})` on a dict of Series:
when every Series carries the same index it is kept as is; otherwise the
indexes are outer-joined into their sorted, deduplicated union (no error is
raised for mismatched key sets). -/
def alignIndex (ks : List (List String)) : List String :=
  match ks with
  | [] => []
  | k :: t =>
      if t.all (fun l => l == k) then k
      else List.insertionSort (fun a b => a ≤ b) (k :: t).flatten.dedup

/-- Reading one cell of the aligned frame: a Series contributes its value
where its index holds the key and `NaN` where the key is missing. -/
def lookupPF (m : List (String × ℚ)) (k : String) : PF :=
  match m.find? (fun p => p.1 == k) with
  | some p => PF.fin p.2
  | none => PF.nan

/-- One aligned column of the `comparison` frame. -/
def colOn (idx : List String) (m : List (String × ℚ)) : List PF :=
  idx.map (lookupPF m)

/-- The notebook's column-wise min-max normalization
`comparison.apply(lambda x: (x - x.min())/(x.max()-x.min()), axis=0)`.
There is no guard for `max = min`: a constant column turns into `0/0`,
i.e. `NaN`, in every row. -/
def normColumn (c : List PF) : List PF :=
  c.map (fun x => PF.div (PF.sub x (pfMin c)) (PF.sub (pfMax c) (pfMin c)))

/-- Row-wise mean of the four estimator columns,
`comparison_norm[['RandomForest','Permutation','SHAP','Regression']].mean(axis=1)`
(pandas default `skipna=True`). -/
def rowMeans4 : List PF → List PF → List PF → List PF → List PF
  | a :: as, b :: bs, c :: cs, d :: ds => pfMean [a, b, c, d] :: rowMeans4 as bs cs ds
  | _, _, _, _ => []

/-- The consensus aggregator `consensus_importance` of the notebook: align
the four estimator mappings (and the two PCA loading columns, which are
normalized alongside but excluded from the consensus mean), min-max
normalize each column, average the four estimator columns row-wise, and
sort descending. -/
def consensusSorted (rf pm sh rg pc1c pc2c : List (String × ℚ)) :
    List (String × PF) :=
  let idx := alignIndex
    [rf.map Prod.fst, pm.map Prod.fst, sh.map Prod.fst,
     rg.map Prod.fst, pc1c.map Prod.fst, pc2c.map Prod.fst]
  let n1 := normColumn (colOn idx rf)
  let n2 := normColumn (colOn idx pm)
  let n3 := normColumn (colOn idx sh)
  let n4 := normColumn (colOn idx rg)
  insSortBy (fun a b => pfGt a.2 b.2) (idx.zip (rowMeans4 n1 n2 n3 n4))

/-- Min-max normalization of a plain rational column (the value the
notebook's normalization takes on an all-finite, non-constant column). -/
def mmNorm (vs : List ℚ) : List ℚ :=
  vs.map (fun v => (v - listMin vs) / (listMax vs - listMin vs))

theorem finVals_map_fin (vs : List ℚ) : finVals (vs.map PF.fin) = vs := by
  induction vs with
  | nil => rfl
  | cons v t ih => simp [finVals, List.filterMap_cons] at ih ⊢; exact ih

theorem foldlMin_mem (t : List ℚ) : ∀ x : ℚ, t.foldl min x = x ∨ t.foldl min x ∈ t := by
  induction t with
  | nil => intro x; exact Or.inl rfl
  | cons a t ih =>
    intro x
    simp only [List.foldl_cons]
    rcases ih (min x a) with h | h
    · rcases min_choice x a with hc | hc
      · rw [h, hc]; exact Or.inl rfl
      · rw [h, hc]; exact Or.inr (List.mem_cons_self a t)
    · exact Or.inr (List.mem_cons_of_mem a h)

theorem listMin_mem {l : List ℚ} (h : l ≠ []) : listMin l ∈ l := by
  match l with
  | x :: t =>
    rcases foldlMin_mem t x with h' | h'
    · rw [listMin, h']; exact List.mem_cons_self x t
    · exact List.mem_cons_of_mem x h'

theorem foldlMax_mem (t : List ℚ) : ∀ x : ℚ, t.foldl max x = x ∨ t.foldl max x ∈ t := by
  induction t with
  | nil => intro x; exact Or.inl rfl
  | cons a t ih =>
    intro x
    simp only [List.foldl_cons]
    rcases ih (max x a) with h | h
    · rcases max_choice x a with hc | hc
      · rw [h, hc]; exact Or.inl rfl
      · rw [h, hc]; exact Or.inr (List.mem_cons_self a t)
    · exact Or.inr (List.mem_cons_of_mem a h)

theorem listMax_mem {l : List ℚ} (h : l ≠ []) : listMax l ∈ l := by
  match l with
  | x :: t =>
    rcases foldlMax_mem t x with h' | h'
    · rw [listMax, h']; exact List.mem_cons_self x t
    · exact List.mem_cons_of_mem x h'

theorem listMin_le_listMax {l : List ℚ} (h : l ≠ []) : listMin l ≤ listMax l :=
  le_trans (listMin_le (listMin_mem h)) (le_listMax (listMin_mem h))

theorem pfMin_map_fin (vs : List ℚ) (h : vs ≠ []) :
    pfMin (vs.map PF.fin) = PF.fin (listMin vs) := by
  unfold pfMin
  rw [finVals_map_fin]
  cases vs with
  | nil => exact absurd rfl h
  | cons x t => rfl

theorem pfMax_map_fin (vs : List ℚ) (h : vs ≠ []) :
    pfMax (vs.map PF.fin) = PF.fin (listMax vs) := by
  unfold pfMax
  rw [finVals_map_fin]
  cases vs with
  | nil => exact absurd rfl h
  | cons x t => rfl

theorem normColumn_fin (vs : List ℚ) (hne : vs ≠ [])
    (hmm : listMin vs ≠ listMax vs) :
    normColumn (vs.map PF.fin) = (mmNorm vs).map PF.fin := by
  unfold normColumn mmNorm
  rw [pfMin_map_fin vs hne, pfMax_map_fin vs hne, List.map_map, List.map_map]
  refine List.map_congr_left ?_
  intro v hv
  have hd : listMax vs - listMin vs ≠ 0 := sub_ne_zero.mpr (Ne.symm hmm)
  simp [PF.sub, PF.div, hd]

theorem normColumn_const (vs : List ℚ) (c : ℚ) (hne : vs ≠ [])
    (hc : ∀ x ∈ vs, x = c) :
    normColumn (vs.map PF.fin) = List.replicate vs.length PF.nan := by
  have hmin : listMin vs = c := hc _ (listMin_mem hne)
  have hmax : listMax vs = c := hc _ (listMax_mem hne)
  unfold normColumn
  rw [pfMin_map_fin vs hne, pfMax_map_fin vs hne, List.map_map]
  rw [List.eq_replicate_iff]
  constructor
  · simp
  · intro b hb
    rcases List.mem_map.mp hb with ⟨v, hv, hbv⟩
    have : v = c := hc v hv
    simp [← hbv, this, hmin, hmax, PF.sub, PF.div]

theorem lookupPF_cons_self (k : String) (v : ℚ) (m : List (String × ℚ)) :
    lookupPF ((k, v) :: m) k = PF.fin v := by
  simp [lookupPF, List.find?_cons]

theorem lookupPF_cons_ne (k k' : String) (v : ℚ) (m : List (String × ℚ))
    (h : k ≠ k') : lookupPF ((k, v) :: m) k' = lookupPF m k' := by
  simp only [lookupPF, List.find?_cons]
  have : ((k, v).1 == k') = false := by simpa using h
  rw [this]

theorem lookupPF_not_mem (m : List (String × ℚ)) (k : String)
    (h : ∀ p ∈ m, p.1 ≠ k) : lookupPF m k = PF.nan := by
  induction m with
  | nil => rfl
  | cons p t ih =>
    rcases p with ⟨k', v⟩
    rw [lookupPF_cons_ne k' k v t (h _ (List.mem_cons_self _ _))]
    exact ih (fun q hq => h q (List.mem_cons_of_mem _ hq))

theorem colOn_zip_self (ks : List String) (vs : List ℚ)
    (hnd : ks.Nodup) (hlen : vs.length = ks.length) :
    colOn ks (ks.zip vs) = vs.map PF.fin := by
  induction ks generalizing vs with
  | nil =>
    have : vs = [] := List.length_eq_zero.mp hlen
    simp [this, colOn]
  | cons k kt ih =>
    cases vs with
    | nil => exact absurd hlen (by simp)
    | cons v vt =>
      rcases List.nodup_cons.mp hnd with ⟨hk, hnd'⟩
      have hlen' : vt.length = kt.length := by simpa using hlen
      simp only [colOn, List.zip_cons_cons, List.map_cons]
      rw [lookupPF_cons_self]
      congr 1
      have hstep : ∀ k' ∈ kt, lookupPF ((k, v) :: kt.zip vt) k' = lookupPF (kt.zip vt) k' := by
        intro k' hk'
        exact lookupPF_cons_ne k k' v (kt.zip vt) (fun he => hk (he ▸ hk'))
      calc kt.map (lookupPF ((k, v) :: kt.zip vt))
          = kt.map (lookupPF (kt.zip vt)) := List.map_congr_left hstep
        _ = vt.map PF.fin := ih vt hnd' hlen'

theorem pfMean_four_fin (a b c d : ℚ) :
    pfMean [PF.fin a, PF.fin b, PF.fin c, PF.fin d] = PF.fin ((a + b + c + d) / 4) := by
  simp [pfMean, finVals, List.filterMap_cons, listMeanQ]
  ring_nf

theorem pfMean_nan_three_fin (b c d : ℚ) :
    pfMean [PF.nan, PF.fin b, PF.fin c, PF.fin d] = PF.fin ((b + c + d) / 3) := by
  simp [pfMean, finVals, List.filterMap_cons, listMeanQ]
  ring_nf

/-- Pointwise mean of four aligned rational columns (the value `rowMeans4`
takes when no entry is `NaN`). -/
def zipMean4 : List ℚ → List ℚ → List ℚ → List ℚ → List ℚ
  | a :: as, b :: bs, c :: cs, d :: ds => (a + b + c + d) / 4 :: zipMean4 as bs cs ds
  | _, _, _, _ => []

/-- Pointwise mean of three aligned rational columns (the value `rowMeans4`
takes when one column is entirely `NaN` and is skipped). -/
def zipMean3 : List ℚ → List ℚ → List ℚ → List ℚ
  | b :: bs, c :: cs, d :: ds => (b + c + d) / 3 :: zipMean3 bs cs ds
  | _, _, _ => []

theorem rowMeans4_fin (as bs cs ds : List ℚ) :
    rowMeans4 (as.map PF.fin) (bs.map PF.fin) (cs.map PF.fin) (ds.map PF.fin)
      = (zipMean4 as bs cs ds).map PF.fin := by
  induction as generalizing bs cs ds with
  | nil => cases bs <;> cases cs <;> cases ds <;> rfl
  | cons a as ih =>
    cases bs with
    | nil => cases cs <;> cases ds <;> rfl
    | cons b bs =>
      cases cs with
      | nil => cases ds <;> rfl
      | cons c cs =>
        cases ds with
        | nil => rfl
        | cons d ds =>
          simp only [List.map_cons, rowMeans4, zipMean4, pfMean_four_fin, ih]

theorem rowMeans4_nan_first (n : ℕ) (bs cs ds : List ℚ) :
    rowMeans4 (List.replicate n PF.nan) (bs.map PF.fin) (cs.map PF.fin) (ds.map PF.fin)
      = (zipMean3 (bs.take n) (cs.take n) (ds.take n)).map PF.fin := by
  induction n generalizing bs cs ds with
  | zero => cases bs <;> cases cs <;> cases ds <;> rfl
  | succ n ih =>
    cases bs with
    | nil => cases cs <;> cases ds <;> rfl
    | cons b bs =>
      cases cs with
      | nil => cases ds <;> rfl
      | cons c cs =>
        cases ds with
        | nil => rfl
        | cons d ds =>
          simp only [List.replicate_succ, List.map_cons, rowMeans4, List.take_cons,
            zipMean3, pfMean_nan_three_fin, ih]

theorem zipMean4_getElem (as bs cs ds : List ℚ)
    (hb : bs.length = as.length) (hc : cs.length = as.length)
    (hd : ds.length = as.length) (i : ℕ) (hi : i < as.length)
    (hib : i < bs.length) (hic : i < cs.length) (hid : i < ds.length)
    (hiz : i < (zipMean4 as bs cs ds).length) :
    (zipMean4 as bs cs ds)[i] = (as[i] + bs[i] + cs[i] + ds[i]) / 4 := by
  induction as generalizing bs cs ds i with
  | nil => exact absurd hi (by simp)
  | cons a as ih =>
    cases bs with
    | nil => exact absurd hb (by simp)
    | cons b bs =>
      cases cs with
      | nil => exact absurd hc (by simp)
      | cons c cs =>
        cases ds with
        | nil => exact absurd hd (by simp)
        | cons d ds =>
          cases i with
          | zero => rfl
          | succ i =>
            have hb' : bs.length = as.length := by simpa using hb
            have hc' : cs.length = as.length := by simpa using hc
            have hd' : ds.length = as.length := by simpa using hd
            have hi' : i < as.length := by simpa using hi
            have hib' : i < bs.length := by simpa using hib
            have hic' : i < cs.length := by simpa using hic
            have hid' : i < ds.length := by simpa using hid
            have hiz' : i < (zipMean4 as bs cs ds).length := by
              simpa [zipMean4] using hiz
            simpa [zipMean4] using ih bs cs ds hb' hc' hd' i hi' hib' hic' hid' hiz'

theorem zipMean4_length (as bs cs ds : List ℚ)
    (hb : bs.length = as.length) (hc : cs.length = as.length)
    (hd : ds.length = as.length) :
    (zipMean4 as bs cs ds).length = as.length := by
  induction as generalizing bs cs ds with
  | nil => cases bs <;> cases cs <;> cases ds <;> simp_all [zipMean4]
  | cons a as ih =>
    cases bs with
    | nil => exact absurd hb (by simp)
    | cons b bs =>
      cases cs with
      | nil => exact absurd hc (by simp)
      | cons c cs =>
        cases ds with
        | nil => exact absurd hd (by simp)
        | cons d ds =>
          have hb' : bs.length = as.length := by simpa using hb
          have hc' : cs.length = as.length := by simpa using hc
          have hd' : ds.length = as.length := by simpa using hd
          simp [zipMean4, ih bs cs ds hb' hc' hd']

theorem mmNorm_length (vs : List ℚ) : (mmNorm vs).length = vs.length := by
  simp [mmNorm]

theorem mmNorm_getElem (vs : List ℚ) (i : ℕ) (hi : i < vs.length)
    (hi' : i < (mmNorm vs).length) :
    (mmNorm vs)[i] = (vs[i] - listMin vs) / (listMax vs - listMin vs) := by
  simp [mmNorm]

theorem mmNorm_mem_bounds (vs : List ℚ) (hmm : listMin vs ≠ listMax vs) :
    ∀ x ∈ mmNorm vs, 0 ≤ x ∧ x ≤ 1 := by
  intro x hx
  rcases List.mem_map.mp hx with ⟨v, hv, hxv⟩
  have hne : vs ≠ [] := by
    intro h; subst h; cases hv
  have hlt : listMin vs < listMax vs :=
    lt_of_le_of_ne (listMin_le_listMax hne) hmm
  have hden : (0 : ℚ) < listMax vs - listMin vs := by linarith
  constructor
  · rw [← hxv]
    apply div_nonneg _ (le_of_lt hden)
    have := listMin_le hv
    linarith
  · rw [← hxv]
    rw [div_le_one hden]
    have := le_listMax hv
    linarith

theorem zipMean4_mem_bounds (as bs cs ds : List ℚ)
    (ha : ∀ x ∈ as, 0 ≤ x ∧ x ≤ 1) (hb : ∀ x ∈ bs, 0 ≤ x ∧ x ≤ 1)
    (hc : ∀ x ∈ cs, 0 ≤ x ∧ x ≤ 1) (hd : ∀ x ∈ ds, 0 ≤ x ∧ x ≤ 1) :
    ∀ m ∈ zipMean4 as bs cs ds, 0 ≤ m ∧ m ≤ 1 := by
  induction as generalizing bs cs ds with
  | nil => intro m hm; cases bs <;> cases cs <;> cases ds <;> cases hm
  | cons a as ih =>
    intro m hm
    cases bs with
    | nil => cases cs <;> cases ds <;> cases hm
    | cons b bs =>
      cases cs with
      | nil => cases ds <;> cases hm
      | cons c cs =>
        cases ds with
        | nil => cases hm
        | cons d ds =>
          rcases List.mem_cons.mp hm with h | h
          · subst h
            have h1 := ha a (List.mem_cons_self _ _)
            have h2 := hb b (List.mem_cons_self _ _)
            have h3 := hc c (List.mem_cons_self _ _)
            have h4 := hd d (List.mem_cons_self _ _)
            constructor
            · apply div_nonneg (by linarith) (by norm_num)
            · rw [div_le_one (by norm_num : (0:ℚ) < 4)]
              linarith
          · exact ih bs cs ds
              (fun x hx => ha x (List.mem_cons_of_mem _ hx))
              (fun x hx => hb x (List.mem_cons_of_mem _ hx))
              (fun x hx => hc x (List.mem_cons_of_mem _ hx))
              (fun x hx => hd x (List.mem_cons_of_mem _ hx)) m h

theorem alignIndex_all_eq (k : List String) (t : List (List String))
    (h : ∀ l ∈ t, l = k) : alignIndex (k :: t) = k := by
  have : t.all (fun l => l == k) = true := by
    rw [List.all_eq_true]
    intro l hl
    simpa using h l hl
  simp [alignIndex, this]

theorem zip_pairwise_indexOf (ks : List String) {α : Type} (vs : List α)
    (hnd : ks.Nodup) :
    (ks.zip vs).Pairwise (fun a b => ks.indexOf a.1 < ks.indexOf b.1) := by
  induction ks generalizing vs with
  | nil => simp
  | cons k kt ih =>
    cases vs with
    | nil => simp
    | cons v vt =>
      rcases List.nodup_cons.mp hnd with ⟨hk, hnd'⟩
      rw [List.zip_cons_cons]
      refine List.pairwise_cons.mpr ⟨?_, ?_⟩
      · intro b hb
        have hb1 : b.1 ∈ kt := by
          rcases b with ⟨b1, b2⟩
          exact (List.of_mem_zip hb).1
        have hbk : b.1 ≠ k := fun he => hk (he ▸ hb1)
        rw [List.indexOf_cons_self, List.indexOf_cons_ne kt (Ne.symm hbk)]
        exact Nat.succ_pos _
      · refine (ih vt hnd').imp_of_mem ?_
        intro a b ha hb hab
        have ha1 : a.1 ∈ kt := by
          rcases a with ⟨a1, a2⟩
          exact (List.of_mem_zip ha).1
        have hb1 : b.1 ∈ kt := by
          rcases b with ⟨b1, b2⟩
          exact (List.of_mem_zip hb).1
        have hak : a.1 ≠ k := fun he => hk (he ▸ ha1)
        have hbk : b.1 ≠ k := fun he => hk (he ▸ hb1)
        rw [List.indexOf_cons_ne kt (Ne.symm hak), List.indexOf_cons_ne kt (Ne.symm hbk)]
        exact Nat.succ_lt_succ hab

theorem consensusSorted_eq (keys : List String) (v1 v2 v3 v4 w1 w2 : List ℚ)
    (hnd : keys.Nodup) (hk : keys ≠ [])
    (l1 : v1.length = keys.length) (l2 : v2.length = keys.length)
    (l3 : v3.length = keys.length) (l4 : v4.length = keys.length)
    (lw1 : w1.length = keys.length) (lw2 : w2.length = keys.length)
    (m1 : listMin v1 ≠ listMax v1) (m2 : listMin v2 ≠ listMax v2)
    (m3 : listMin v3 ≠ listMax v3) (m4 : listMin v4 ≠ listMax v4) :
    consensusSorted (keys.zip v1) (keys.zip v2) (keys.zip v3) (keys.zip v4)
        (keys.zip w1) (keys.zip w2)
      = insSortBy (fun a b => pfGt a.2 b.2)
          (keys.zip ((zipMean4 (mmNorm v1) (mmNorm v2) (mmNorm v3)
            (mmNorm v4)).map PF.fin)) := by
  have hv1 : v1 ≠ [] := by
    intro h; subst h; exact hk (List.length_eq_zero.mp (l1.symm.trans rfl))
  have hv2 : v2 ≠ [] := by
    intro h; subst h; exact hk (List.length_eq_zero.mp (l2.symm.trans rfl))
  have hv3 : v3 ≠ [] := by
    intro h; subst h; exact hk (List.length_eq_zero.mp (l3.symm.trans rfl))
  have hv4 : v4 ≠ [] := by
    intro h; subst h; exact hk (List.length_eq_zero.mp (l4.symm.trans rfl))
  have hf1 : (keys.zip v1).map Prod.fst = keys := List.map_fst_zip _ _ (le_of_eq l1.symm)
  have hf2 : (keys.zip v2).map Prod.fst = keys := List.map_fst_zip _ _ (le_of_eq l2.symm)
  have hf3 : (keys.zip v3).map Prod.fst = keys := List.map_fst_zip _ _ (le_of_eq l3.symm)
  have hf4 : (keys.zip v4).map Prod.fst = keys := List.map_fst_zip _ _ (le_of_eq l4.symm)
  have hfw1 : (keys.zip w1).map Prod.fst = keys := List.map_fst_zip _ _ (le_of_eq lw1.symm)
  have hfw2 : (keys.zip w2).map Prod.fst = keys := List.map_fst_zip _ _ (le_of_eq lw2.symm)
  unfold consensusSorted
  rw [hf1, hf2, hf3, hf4, hfw1, hfw2]
  rw [alignIndex_all_eq keys _ (by intro l hl; simpa using hl)]
  simp only []
  rw [colOn_zip_self keys v1 hnd l1, colOn_zip_self keys v2 hnd l2,
      colOn_zip_self keys v3 hnd l3, colOn_zip_self keys v4 hnd l4]
  rw [normColumn_fin v1 hv1 m1, normColumn_fin v2 hv2 m2,
      normColumn_fin v3 hv3 m3, normColumn_fin v4 hv4 m4]
  rw [rowMeans4_fin]

/-- C1 (amended): for four ImportanceScore mappings over an identical,
duplicate-free key list, each with a non-constant score vector (the
degenerate constant case yields `NaN`, see the C1 counterexample and C2),
the consensus output is keyed by exactly the input keys, each feature's
value is the arithmetic mean of its four min-max-normalized scores (the two
PCA loading columns are excluded from the mean), every value lies in
`[0,1]`, and the output is sorted descending with ties broken by the
original feature order. -/
theorem consensus_aggregator_correct
    (keys : List String) (v1 v2 v3 v4 w1 w2 : List ℚ)
    (hnd : keys.Nodup) (hk : keys ≠ [])
    (l1 : v1.length = keys.length) (l2 : v2.length = keys.length)
    (l3 : v3.length = keys.length) (l4 : v4.length = keys.length)
    (lw1 : w1.length = keys.length) (lw2 : w2.length = keys.length)
    (m1 : listMin v1 ≠ listMax v1) (m2 : listMin v2 ≠ listMax v2)
    (m3 : listMin v3 ≠ listMax v3) (m4 : listMin v4 ≠ listMax v4) :
    ((consensusSorted (keys.zip v1) (keys.zip v2) (keys.zip v3) (keys.zip v4)
        (keys.zip w1) (keys.zip w2)).map Prod.fst).Perm keys
    ∧ (∀ i (hi : i < keys.length) (h1i : i < v1.length) (h2i : i < v2.length)
        (h3i : i < v3.length) (h4i : i < v4.length),
        (keys[i], PF.fin (((v1[i] - listMin v1) / (listMax v1 - listMin v1)
          + (v2[i] - listMin v2) / (listMax v2 - listMin v2)
          + (v3[i] - listMin v3) / (listMax v3 - listMin v3)
          + (v4[i] - listMin v4) / (listMax v4 - listMin v4)) / 4))
          ∈ consensusSorted (keys.zip v1) (keys.zip v2) (keys.zip v3)
              (keys.zip v4) (keys.zip w1) (keys.zip w2))
    ∧ (∀ e ∈ consensusSorted (keys.zip v1) (keys.zip v2) (keys.zip v3)
        (keys.zip v4) (keys.zip w1) (keys.zip w2),
        ∃ q, e.2 = PF.fin q ∧ 0 ≤ q ∧ q ≤ 1)
    ∧ (consensusSorted (keys.zip v1) (keys.zip v2) (keys.zip v3) (keys.zip v4)
        (keys.zip w1) (keys.zip w2)).Pairwise
          (StablyBefore (fun a b => pfGt a.2 b.2) (fun e => keys.indexOf e.1)) := by
  rw [consensusSorted_eq keys v1 v2 v3 v4 w1 w2 hnd hk l1 l2 l3 l4 lw1 lw2 m1 m2 m3 m4]
  set cvals := (zipMean4 (mmNorm v1) (mmNorm v2) (mmNorm v3) (mmNorm v4)).map PF.fin
    with hcv
  have hcvlen : cvals.length = keys.length := by
    rw [hcv, List.length_map,
      zipMean4_length _ _ _ _ (by rw [mmNorm_length, mmNorm_length, l2, l1])
        (by rw [mmNorm_length, mmNorm_length, l3, l1])
        (by rw [mmNorm_length, mmNorm_length, l4, l1]),
      mmNorm_length, l1]
  have hperm := insSortBy_perm (fun (a b : String × PF) => pfGt a.2 b.2) (keys.zip cvals)
  refine ⟨?_, ?_, ?_, ?_⟩
  · have hmp := hperm.map Prod.fst
    rw [List.map_fst_zip _ _ (le_of_eq hcvlen.symm)] at hmp
    exact hmp
  · intro i hi h1i h2i h3i h4i
    have hiz : i < (keys.zip cvals).length := by
      rw [List.length_zip, hcvlen, min_self]; exact hi
    have hic : i < cvals.length := hcvlen ▸ hi
    have hz4 : i < (zipMean4 (mmNorm v1) (mmNorm v2) (mmNorm v3) (mmNorm v4)).length := by
      have := hic; rwa [hcv, List.length_map] at this
    have hval : cvals[i] = PF.fin (((v1[i] - listMin v1) / (listMax v1 - listMin v1)
        + (v2[i] - listMin v2) / (listMax v2 - listMin v2)
        + (v3[i] - listMin v3) / (listMax v3 - listMin v3)
        + (v4[i] - listMin v4) / (listMax v4 - listMin v4)) / 4) := by
      show (List.map PF.fin (zipMean4 (mmNorm v1) (mmNorm v2) (mmNorm v3)
        (mmNorm v4)))[i] = _
      rw [List.getElem_map]
      rw [zipMean4_getElem _ _ _ _
        (by rw [mmNorm_length, mmNorm_length, l2, l1])
        (by rw [mmNorm_length, mmNorm_length, l3, l1])
        (by rw [mmNorm_length, mmNorm_length, l4, l1])
        i (by rw [mmNorm_length]; exact h1i) (by rw [mmNorm_length]; exact h2i)
        (by rw [mmNorm_length]; exact h3i) (by rw [mmNorm_length]; exact h4i) hz4]
      rw [mmNorm_getElem v1 i h1i, mmNorm_getElem v2 i h2i,
          mmNorm_getElem v3 i h3i, mmNorm_getElem v4 i h4i]
    refine hperm.mem_iff.mpr ?_
    have : (keys.zip cvals)[i] = (keys[i], cvals[i]) := List.getElem_zip
    rw [← hval]
    rw [← this]
    exact List.getElem_mem hiz
  · intro e he
    have hz := hperm.mem_iff.mp he
    have h2 : e.2 ∈ cvals := by
      rcases e with ⟨e1, e2⟩
      exact (List.of_mem_zip hz).2
    rw [hcv] at h2
    rcases List.mem_map.mp h2 with ⟨m, hm, hme⟩
    refine ⟨m, hme.symm, ?_⟩
    exact zipMean4_mem_bounds _ _ _ _ (mmNorm_mem_bounds v1 m1) (mmNorm_mem_bounds v2 m2)
      (mmNorm_mem_bounds v3 m3) (mmNorm_mem_bounds v4 m4) m hm
  · refine insSortBy_pairwise _ _ ?_ ?_ _ (zip_pairwise_indexOf keys cvals hnd)
    · intro x y z hyx hzy
      exact pfGt_le_trans x.2 y.2 z.2 hyx hzy
    · intro x y z hyz hyx
      exact pfGt_gt_of_ge_of_gt x.2 y.2 z.2 hyz hyx

/-- A pandas scalar is a finite value inside `[0,1]`. -/
def inUnitInterval : PF → Prop
  | PF.fin q => 0 ≤ q ∧ q ≤ 1
  | _ => False

instance : DecidablePred inUnitInterval := by
  intro x
  cases x <;> simp [inUnitInterval] <;> infer_instance

/-- C1 witness: the amended consensus theorem applied to a concrete pair of
features with four non-constant estimator columns. -/
theorem consensus_aggregator_correct_witness :
    ((consensusSorted [("a", 0), ("b", 1)] [("a", 1), ("b", 0)] [("a", 0), ("b", 1)]
        [("a", 0), ("b", 1)] [("a", 0), ("b", 1)] [("a", 1), ("b", 0)]).map
          Prod.fst).Perm ["a", "b"]
    ∧ (∀ e ∈ consensusSorted [("a", 0), ("b", 1)] [("a", 1), ("b", 0)]
        [("a", 0), ("b", 1)] [("a", 0), ("b", 1)] [("a", 0), ("b", 1)]
        [("a", 1), ("b", 0)], ∃ q, e.2 = PF.fin q ∧ 0 ≤ q ∧ q ≤ 1) := by
  have h := consensus_aggregator_correct ["a", "b"] [0, 1] [1, 0] [0, 1] [0, 1] [0, 1] [1, 0]
    (by decide) (by decide) (by decide) (by decide) (by decide) (by decide)
    (by decide) (by decide) (by decide) (by decide) (by decide) (by decide)
  have hz : (["a", "b"].zip ([0, 1] : List ℚ)) = [("a", 0), ("b", 1)] := by decide
  have hz' : (["a", "b"].zip ([1, 0] : List ℚ)) = [("a", 1), ("b", 0)] := by decide
  rw [hz, hz'] at h
  exact ⟨h.1, h.2.2.1⟩

/-- C1 counterexample: with four mappings over the single key `a` carrying
identical scores, the notebook's normalization divides `0` by `0`; the
consensus value is `NaN`, which does not lie in `[0,1]`, refuting the
unconditional claim. -/
theorem consensus_aggregator_nan_counterexample :
    consensusSorted [("a", 1)] [("a", 1)] [("a", 1)] [("a", 1)] [("a", 1)] [("a", 1)]
        = [("a", PF.nan)]
    ∧ ¬ inUnitInterval PF.nan := by
  constructor
  · norm_num [consensusSorted, alignIndex, colOn, lookupPF, normColumn, pfMin, pfMax,
      finVals, listMin, listMax, rowMeans4, pfMean, listMeanQ, insSortBy, insSortedInto,
      PF.sub, PF.div, List.find?, List.filterMap_cons, List.filterMap_nil,
      List.foldl_cons, List.foldl_nil, List.sum_cons, List.sum_nil]
    simp
  · simp [inUnitInterval]

theorem zipMean3_length (bs cs ds : List ℚ)
    (hc : cs.length = bs.length) (hd : ds.length = bs.length) :
    (zipMean3 bs cs ds).length = bs.length := by
  induction bs generalizing cs ds with
  | nil => cases cs <;> cases ds <;> simp_all [zipMean3]
  | cons b bs ih =>
    cases cs with
    | nil => exact absurd hc (by simp)
    | cons c cs =>
      cases ds with
      | nil => exact absurd hd (by simp)
      | cons d ds =>
        have hc' : cs.length = bs.length := by simpa using hc
        have hd' : ds.length = bs.length := by simpa using hd
        simp [zipMean3, ih cs ds hc' hd']

theorem zipMean3_getElem (bs cs ds : List ℚ)
    (hc : cs.length = bs.length) (hd : ds.length = bs.length)
    (i : ℕ) (hib : i < bs.length) (hic : i < cs.length) (hid : i < ds.length)
    (hiz : i < (zipMean3 bs cs ds).length) :
    (zipMean3 bs cs ds)[i] = (bs[i] + cs[i] + ds[i]) / 3 := by
  induction bs generalizing cs ds i with
  | nil => exact absurd hib (by simp)
  | cons b bs ih =>
    cases cs with
    | nil => exact absurd hc (by simp)
    | cons c cs =>
      cases ds with
      | nil => exact absurd hd (by simp)
      | cons d ds =>
        cases i with
        | zero => rfl
        | succ i =>
          have hc' : cs.length = bs.length := by simpa using hc
          have hd' : ds.length = bs.length := by simpa using hd
          have hib' : i < bs.length := by simpa using hib
          have hic' : i < cs.length := by simpa using hic
          have hid' : i < ds.length := by simpa using hid
          have hiz' : i < (zipMean3 bs cs ds).length := by
            simpa [zipMean3] using hiz
          simpa [zipMean3] using ih cs ds hc' hd' i hib' hic' hid' hiz'

theorem consensusSorted_eq_first_const (keys : List String)
    (v1 v2 v3 v4 w1 w2 : List ℚ) (c : ℚ)
    (hnd : keys.Nodup) (hk : keys ≠ [])
    (l1 : v1.length = keys.length) (l2 : v2.length = keys.length)
    (l3 : v3.length = keys.length) (l4 : v4.length = keys.length)
    (lw1 : w1.length = keys.length) (lw2 : w2.length = keys.length)
    (hc : ∀ x ∈ v1, x = c)
    (m2 : listMin v2 ≠ listMax v2) (m3 : listMin v3 ≠ listMax v3)
    (m4 : listMin v4 ≠ listMax v4) :
    consensusSorted (keys.zip v1) (keys.zip v2) (keys.zip v3) (keys.zip v4)
        (keys.zip w1) (keys.zip w2)
      = insSortBy (fun a b => pfGt a.2 b.2)
          (keys.zip ((zipMean3 (mmNorm v2) (mmNorm v3) (mmNorm v4)).map PF.fin)) := by
  have hv1 : v1 ≠ [] := by
    intro h; subst h; exact hk (List.length_eq_zero.mp (l1.symm.trans rfl))
  have hv2 : v2 ≠ [] := by
    intro h; subst h; exact hk (List.length_eq_zero.mp (l2.symm.trans rfl))
  have hv3 : v3 ≠ [] := by
    intro h; subst h; exact hk (List.length_eq_zero.mp (l3.symm.trans rfl))
  have hv4 : v4 ≠ [] := by
    intro h; subst h; exact hk (List.length_eq_zero.mp (l4.symm.trans rfl))
  have hf1 : (keys.zip v1).map Prod.fst = keys := List.map_fst_zip _ _ (le_of_eq l1.symm)
  have hf2 : (keys.zip v2).map Prod.fst = keys := List.map_fst_zip _ _ (le_of_eq l2.symm)
  have hf3 : (keys.zip v3).map Prod.fst = keys := List.map_fst_zip _ _ (le_of_eq l3.symm)
  have hf4 : (keys.zip v4).map Prod.fst = keys := List.map_fst_zip _ _ (le_of_eq l4.symm)
  have hfw1 : (keys.zip w1).map Prod.fst = keys := List.map_fst_zip _ _ (le_of_eq lw1.symm)
  have hfw2 : (keys.zip w2).map Prod.fst = keys := List.map_fst_zip _ _ (le_of_eq lw2.symm)
  unfold consensusSorted
  rw [hf1, hf2, hf3, hf4, hfw1, hfw2]
  rw [alignIndex_all_eq keys _ (by intro l hl; simpa using hl)]
  simp only []
  rw [colOn_zip_self keys v1 hnd l1, colOn_zip_self keys v2 hnd l2,
      colOn_zip_self keys v3 hnd l3, colOn_zip_self keys v4 hnd l4]
  rw [normColumn_const v1 c hv1 hc]
  rw [normColumn_fin v2 hv2 m2, normColumn_fin v3 hv3 m3, normColumn_fin v4 hv4 m4]
  rw [rowMeans4_nan_first]
  have ht2 : (mmNorm v2).take v1.length = mmNorm v2 := by
    rw [l1, ← l2, ← mmNorm_length v2]
    exact List.take_length _
  have ht3 : (mmNorm v3).take v1.length = mmNorm v3 := by
    rw [l1, ← l3, ← mmNorm_length v3]
    exact List.take_length _
  have ht4 : (mmNorm v4).take v1.length = mmNorm v4 := by
    rw [l1, ← l4, ← mmNorm_length v4]
    exact List.take_length _
  rw [ht2, ht3, ht4]

/-- C2 (corrected): when one estimator (here the first) reports the same
importance `c` for every feature, the notebook's min-max normalization
produces `0/0 = NaN` for every feature of that estimator — not the constant
`0.5` — and the NaN-skipping row mean then drops that estimator entirely,
so each consensus value is the mean of the remaining three normalized
scores. -/
theorem consensus_degenerate_estimator_nan (keys : List String)
    (v1 v2 v3 v4 w1 w2 : List ℚ) (c : ℚ)
    (hnd : keys.Nodup) (hk : keys ≠ [])
    (l1 : v1.length = keys.length) (l2 : v2.length = keys.length)
    (l3 : v3.length = keys.length) (l4 : v4.length = keys.length)
    (lw1 : w1.length = keys.length) (lw2 : w2.length = keys.length)
    (hc : ∀ x ∈ v1, x = c)
    (m2 : listMin v2 ≠ listMax v2) (m3 : listMin v3 ≠ listMax v3)
    (m4 : listMin v4 ≠ listMax v4) :
    normColumn (colOn keys (keys.zip v1)) = List.replicate keys.length PF.nan
    ∧ (∀ i (hi : i < keys.length) (h2i : i < v2.length)
        (h3i : i < v3.length) (h4i : i < v4.length),
        (keys[i], PF.fin (((v2[i] - listMin v2) / (listMax v2 - listMin v2)
          + (v3[i] - listMin v3) / (listMax v3 - listMin v3)
          + (v4[i] - listMin v4) / (listMax v4 - listMin v4)) / 3))
          ∈ consensusSorted (keys.zip v1) (keys.zip v2) (keys.zip v3)
              (keys.zip v4) (keys.zip w1) (keys.zip w2)) := by
  have hv1 : v1 ≠ [] := by
    intro h; subst h; exact hk (List.length_eq_zero.mp (l1.symm.trans rfl))
  constructor
  · rw [colOn_zip_self keys v1 hnd l1, normColumn_const v1 c hv1 hc, l1]
  · intro i hi h2i h3i h4i
    rw [consensusSorted_eq_first_const keys v1 v2 v3 v4 w1 w2 c hnd hk l1 l2 l3 l4
      lw1 lw2 hc m2 m3 m4]
    set cvals := (zipMean3 (mmNorm v2) (mmNorm v3) (mmNorm v4)).map PF.fin with hcv
    have hcvlen : cvals.length = keys.length := by
      rw [hcv, List.length_map,
        zipMean3_length _ _ _ (by rw [mmNorm_length, mmNorm_length, l3, l2])
          (by rw [mmNorm_length, mmNorm_length, l4, l2]),
        mmNorm_length, l2]
    have hiz : i < (keys.zip cvals).length := by
      rw [List.length_zip, hcvlen, min_self]; exact hi
    have hic : i < cvals.length := hcvlen ▸ hi
    have hz3 : i < (zipMean3 (mmNorm v2) (mmNorm v3) (mmNorm v4)).length := by
      have := hcvlen ▸ hi; rwa [hcv, List.length_map] at this
    have him : i < (List.map PF.fin (zipMean3 (mmNorm v2) (mmNorm v3) (mmNorm v4))).length := hic
    have hval : cvals[i] = PF.fin (((v2[i] - listMin v2) / (listMax v2 - listMin v2)
        + (v3[i] - listMin v3) / (listMax v3 - listMin v3)
        + (v4[i] - listMin v4) / (listMax v4 - listMin v4)) / 3) := by
      show (List.map PF.fin (zipMean3 (mmNorm v2) (mmNorm v3) (mmNorm v4)))[i] = _
      rw [List.getElem_map]
      rw [zipMean3_getElem _ _ _
        (by rw [mmNorm_length, mmNorm_length, l3, l2])
        (by rw [mmNorm_length, mmNorm_length, l4, l2])
        i (by rw [mmNorm_length]; exact h2i) (by rw [mmNorm_length]; exact h3i)
        (by rw [mmNorm_length]; exact h4i) hz3]
      rw [mmNorm_getElem v2 i h2i, mmNorm_getElem v3 i h3i, mmNorm_getElem v4 i h4i]
    refine (insSortBy_perm _ _).mem_iff.mpr ?_
    have : (keys.zip cvals)[i] = (keys[i], cvals[i]) := List.getElem_zip
    rw [← hval, ← this]
    exact List.getElem_mem hiz

/-- C2 witness: the degenerate-estimator theorem applied to the concrete
constant column `[2, 2]` alongside three non-constant columns. -/
theorem consensus_degenerate_estimator_nan_witness :
    normColumn (colOn ["a", "b"] (["a", "b"].zip ([2, 2] : List ℚ)))
        = List.replicate 2 PF.nan
    ∧ ("a", PF.fin 0)
        ∈ consensusSorted (["a", "b"].zip ([2, 2] : List ℚ))
            (["a", "b"].zip ([0, 1] : List ℚ)) (["a", "b"].zip ([0, 1] : List ℚ))
            (["a", "b"].zip ([0, 1] : List ℚ)) (["a", "b"].zip ([0, 1] : List ℚ))
            (["a", "b"].zip ([0, 1] : List ℚ)) := by
  have h := consensus_degenerate_estimator_nan ["a", "b"] [2, 2] [0, 1] [0, 1] [0, 1]
    [0, 1] [0, 1] 2 (by decide) (by decide) (by decide) (by decide) (by decide)
    (by decide) (by decide) (by decide) (by decide) (by decide) (by decide) (by decide)
  refine ⟨h.1, ?_⟩
  have h2 := h.2 0 (by decide) (by decide) (by decide) (by decide)
  have he : PF.fin (((([0, 1] : List ℚ)[0] - listMin [0, 1]) / (listMax [0, 1] - listMin [0, 1])
      + (([0, 1] : List ℚ)[0] - listMin [0, 1]) / (listMax [0, 1] - listMin [0, 1])
      + (([0, 1] : List ℚ)[0] - listMin [0, 1]) / (listMax [0, 1] - listMin [0, 1])) / 3)
      = PF.fin 0 := by
    norm_num [listMin, listMax]
  rw [he] at h2
  exact h2

/-- C2 counterexample: on the constant column `[2, 2]` the notebook's
normalization yields `NaN`, not the claimed constant `0.5`. -/
theorem consensus_degenerate_half_counterexample :
    normColumn [PF.fin 2, PF.fin 2] = [PF.nan, PF.nan]
    ∧ PF.nan ≠ PF.fin (1 / 2) := by
  constructor
  · norm_num [normColumn, pfMin, pfMax, finVals, listMin, listMax,
      List.filterMap_cons, List.filterMap_nil, List.foldl_cons, List.foldl_nil,
      PF.sub, PF.div]
  · simp

theorem min_affine (a b x y : ℚ) (ha : 0 < a) :
    min (a * x + b) (a * y + b) = a * min x y + b := by
  rcases le_total x y with h | h
  · rw [min_eq_left h, min_eq_left (by nlinarith : a * x + b ≤ a * y + b)]
  · rw [min_eq_right h, min_eq_right (by nlinarith : a * y + b ≤ a * x + b)]

theorem max_affine (a b x y : ℚ) (ha : 0 < a) :
    max (a * x + b) (a * y + b) = a * max x y + b := by
  rcases le_total x y with h | h
  · rw [max_eq_right h, max_eq_right (by nlinarith : a * x + b ≤ a * y + b)]
  · rw [max_eq_left h, max_eq_left (by nlinarith : a * y + b ≤ a * x + b)]

theorem listMin_affine (a b : ℚ) (ha : 0 < a) (vs : List ℚ) (hne : vs ≠ []) :
    listMin (vs.map (fun x => a * x + b)) = a * listMin vs + b := by
  match vs with
  | x :: t =>
    show (t.map (fun x => a * x + b)).foldl min (a * x + b) = a * t.foldl min x + b
    induction t generalizing x with
    | nil => simp
    | cons y t ih =>
      simp only [List.map_cons, List.foldl_cons]
      rw [min_affine a b x y ha, ih _ (List.cons_ne_nil _ _)]

theorem listMax_affine (a b : ℚ) (ha : 0 < a) (vs : List ℚ) (hne : vs ≠ []) :
    listMax (vs.map (fun x => a * x + b)) = a * listMax vs + b := by
  match vs with
  | x :: t =>
    show (t.map (fun x => a * x + b)).foldl max (a * x + b) = a * t.foldl max x + b
    induction t generalizing x with
    | nil => simp
    | cons y t ih =>
      simp only [List.map_cons, List.foldl_cons]
      rw [max_affine a b x y ha, ih _ (List.cons_ne_nil _ _)]

theorem mmNorm_affine (a b : ℚ) (ha : 0 < a) (vs : List ℚ) :
    mmNorm (vs.map (fun x => a * x + b)) = mmNorm vs := by
  cases hvs : vs with
  | nil => simp [mmNorm]
  | cons x t =>
  rw [← hvs]
  have hne : vs ≠ [] := by rw [hvs]; exact List.cons_ne_nil x t
  unfold mmNorm
  rw [listMin_affine a b ha vs hne, listMax_affine a b ha vs hne, List.map_map]
  refine List.map_congr_left ?_
  intro v hv
  show (a * v + b - (a * listMin vs + b)) / (a * listMax vs + b - (a * listMin vs + b))
      = (v - listMin vs) / (listMax vs - listMin vs)
  have h1 : a * v + b - (a * listMin vs + b) = a * (v - listMin vs) := by ring
  have h2 : a * listMax vs + b - (a * listMin vs + b) = a * (listMax vs - listMin vs) := by
    ring
  rw [h1, h2, mul_div_mul_left _ _ (ne_of_gt ha)]

/-- C9 (confirmed): for a non-constant estimator column, the notebook's
min-max normalization is strictly monotone (it preserves each estimator's
internal ranking, with equal raw scores mapping to equal normalized
scores), it is invariant under any positive affine rescaling of that
column, and consequently the whole consensus output is unchanged when one
estimator's raw scores are rescaled by `x ↦ a*x + b` with `a > 0`. -/
theorem minmax_monotone_and_affine_invariant
    (keys : List String) (v1 v2 v3 v4 w1 w2 : List ℚ) (a b : ℚ)
    (hnd : keys.Nodup) (hk : keys ≠ [])
    (l1 : v1.length = keys.length) (l2 : v2.length = keys.length)
    (l3 : v3.length = keys.length) (l4 : v4.length = keys.length)
    (lw1 : w1.length = keys.length) (lw2 : w2.length = keys.length)
    (m1 : listMin v1 ≠ listMax v1) (m2 : listMin v2 ≠ listMax v2)
    (m3 : listMin v3 ≠ listMax v3) (m4 : listMin v4 ≠ listMax v4)
    (ha : 0 < a) :
    (∀ i j (hi : i < v1.length) (hj : j < v1.length)
        (hi' : i < (mmNorm v1).length) (hj' : j < (mmNorm v1).length),
        ((mmNorm v1)[i] < (mmNorm v1)[j] ↔ v1[i] < v1[j])
        ∧ ((mmNorm v1)[i] = (mmNorm v1)[j] ↔ v1[i] = v1[j]))
    ∧ mmNorm (v1.map (fun x => a * x + b)) = mmNorm v1
    ∧ consensusSorted (keys.zip (v1.map (fun x => a * x + b))) (keys.zip v2)
        (keys.zip v3) (keys.zip v4) (keys.zip w1) (keys.zip w2)
      = consensusSorted (keys.zip v1) (keys.zip v2) (keys.zip v3) (keys.zip v4)
          (keys.zip w1) (keys.zip w2) := by
  have hv1 : v1 ≠ [] := by
    intro h; subst h; exact hk (List.length_eq_zero.mp (l1.symm.trans rfl))
  have hlt : listMin v1 < listMax v1 := lt_of_le_of_ne (listMin_le_listMax hv1) m1
  have hd : (0 : ℚ) < listMax v1 - listMin v1 := by linarith
  have hd0 : listMax v1 - listMin v1 ≠ 0 := ne_of_gt hd
  refine ⟨?_, mmNorm_affine a b ha v1, ?_⟩
  · intro i j hi hj hi' hj'
    rw [mmNorm_getElem v1 i hi, mmNorm_getElem v1 j hj]
    constructor
    · rw [div_lt_div_iff_of_pos_right hd]
      constructor
      · intro h; linarith
      · intro h; linarith
    · constructor
      · intro h
        have h' := congrArg (fun z => z * (listMax v1 - listMin v1)) h
        simp only [div_mul_cancel₀ _ hd0] at h'
        linarith
      · intro h; rw [h]
  · have l1' : (v1.map (fun x => a * x + b)).length = keys.length := by
      rw [List.length_map]; exact l1
    have m1' : listMin (v1.map (fun x => a * x + b))
        ≠ listMax (v1.map (fun x => a * x + b)) := by
      rw [listMin_affine a b ha v1 hv1, listMax_affine a b ha v1 hv1]
      intro h
      exact m1 (mul_left_cancel₀ (ne_of_gt ha) (by linarith))
    rw [consensusSorted_eq keys _ v2 v3 v4 w1 w2 hnd hk l1' l2 l3 l4 lw1 lw2 m1' m2 m3 m4,
        consensusSorted_eq keys v1 v2 v3 v4 w1 w2 hnd hk l1 l2 l3 l4 lw1 lw2 m1 m2 m3 m4,
        mmNorm_affine a b ha v1]

/-- C9 witness: normalization monotonicity and affine invariance of the
consensus at a concrete input (`x ↦ 2x + 3` applied to the first column). -/
theorem minmax_monotone_and_affine_invariant_witness :
    mmNorm (([0, 1] : List ℚ).map (fun x => 2 * x + 3)) = mmNorm [0, 1]
    ∧ consensusSorted (["a", "b"].zip (([0, 1] : List ℚ).map (fun x => 2 * x + 3)))
        (["a", "b"].zip ([0, 1] : List ℚ)) (["a", "b"].zip ([0, 1] : List ℚ))
        (["a", "b"].zip ([0, 1] : List ℚ)) (["a", "b"].zip ([0, 1] : List ℚ))
        (["a", "b"].zip ([0, 1] : List ℚ))
      = consensusSorted (["a", "b"].zip ([0, 1] : List ℚ))
          (["a", "b"].zip ([0, 1] : List ℚ)) (["a", "b"].zip ([0, 1] : List ℚ))
          (["a", "b"].zip ([0, 1] : List ℚ)) (["a", "b"].zip ([0, 1] : List ℚ))
          (["a", "b"].zip ([0, 1] : List ℚ)) := by
  have h := minmax_monotone_and_affine_invariant ["a", "b"] [0, 1] [0, 1] [0, 1] [0, 1]
    [0, 1] [0, 1] 2 3 (by decide) (by decide) (by decide) (by decide) (by decide)
    (by decide) (by decide) (by decide) (by decide) (by decide) (by decide) (by decide)
    (by norm_num)
  exact ⟨h.2.1, h.2.2⟩

theorem rowMeans4_length (as bs cs ds : List PF)
    (hb : bs.length = as.length) (hc : cs.length = as.length)
    (hd : ds.length = as.length) :
    (rowMeans4 as bs cs ds).length = as.length := by
  induction as generalizing bs cs ds with
  | nil => cases bs <;> cases cs <;> cases ds <;> simp_all [rowMeans4]
  | cons a as ih =>
    cases bs with
    | nil => exact absurd hb (by simp)
    | cons b bs =>
      cases cs with
      | nil => exact absurd hc (by simp)
      | cons c cs =>
        cases ds with
        | nil => exact absurd hd (by simp)
        | cons d ds =>
          have hb' : bs.length = as.length := by simpa using hb
          have hc' : cs.length = as.length := by simpa using hc
          have hd' : ds.length = as.length := by simpa using hd
          simp [rowMeans4, ih bs cs ds hb' hc' hd']

/-- C7 (corrected): the aggregator performs no key-set validation and never
raises: when the six Series' key lists are not all identical, pandas
outer-joins them into the sorted, duplicate-free union of the keys, fills
each estimator's missing keys with `NaN`, and still returns a consensus
series keyed by that union. -/
theorem consensus_no_keyset_validation
    (m1 m2 m3 m4 m5 m6 : List (String × ℚ))
    (hne : ([m2.map Prod.fst, m3.map Prod.fst, m4.map Prod.fst, m5.map Prod.fst,
      m6.map Prod.fst].all (fun l => l == m1.map Prod.fst)) = false) :
    alignIndex [m1.map Prod.fst, m2.map Prod.fst, m3.map Prod.fst, m4.map Prod.fst,
        m5.map Prod.fst, m6.map Prod.fst]
      = List.insertionSort (fun a b => a ≤ b)
          ([m1.map Prod.fst, m2.map Prod.fst, m3.map Prod.fst, m4.map Prod.fst,
            m5.map Prod.fst, m6.map Prod.fst].flatten.dedup)
    ∧ (alignIndex [m1.map Prod.fst, m2.map Prod.fst, m3.map Prod.fst, m4.map Prod.fst,
        m5.map Prod.fst, m6.map Prod.fst]).Sorted (· ≤ ·)
    ∧ (alignIndex [m1.map Prod.fst, m2.map Prod.fst, m3.map Prod.fst, m4.map Prod.fst,
        m5.map Prod.fst, m6.map Prod.fst]).Nodup
    ∧ (∀ x, x ∈ alignIndex [m1.map Prod.fst, m2.map Prod.fst, m3.map Prod.fst,
        m4.map Prod.fst, m5.map Prod.fst, m6.map Prod.fst]
        ↔ x ∈ [m1.map Prod.fst, m2.map Prod.fst, m3.map Prod.fst, m4.map Prod.fst,
            m5.map Prod.fst, m6.map Prod.fst].flatten)
    ∧ (∀ (m : List (String × ℚ)) (k : String), (∀ p ∈ m, p.1 ≠ k) →
        lookupPF m k = PF.nan)
    ∧ ((consensusSorted m1 m2 m3 m4 m5 m6).map Prod.fst).Perm
        (alignIndex [m1.map Prod.fst, m2.map Prod.fst, m3.map Prod.fst, m4.map Prod.fst,
          m5.map Prod.fst, m6.map Prod.fst]) := by
  have halign : alignIndex [m1.map Prod.fst, m2.map Prod.fst, m3.map Prod.fst,
      m4.map Prod.fst, m5.map Prod.fst, m6.map Prod.fst]
      = List.insertionSort (fun a b => a ≤ b)
          ([m1.map Prod.fst, m2.map Prod.fst, m3.map Prod.fst, m4.map Prod.fst,
            m5.map Prod.fst, m6.map Prod.fst].flatten.dedup) := by
    simp [alignIndex, hne]
  have hperm := List.perm_insertionSort (fun a b : String => a ≤ b)
    ([m1.map Prod.fst, m2.map Prod.fst, m3.map Prod.fst, m4.map Prod.fst,
      m5.map Prod.fst, m6.map Prod.fst].flatten.dedup)
  refine ⟨halign, ?_, ?_, ?_, fun m k h => lookupPF_not_mem m k h, ?_⟩
  · rw [halign]
    exact List.sorted_insertionSort _ _
  · rw [halign]
    exact (hperm.nodup_iff).mpr (List.nodup_dedup _)
  · intro x
    rw [halign]
    rw [hperm.mem_iff]
    exact List.mem_dedup
  · unfold consensusSorted
    simp only []
    set idx := alignIndex [m1.map Prod.fst, m2.map Prod.fst, m3.map Prod.fst,
      m4.map Prod.fst, m5.map Prod.fst, m6.map Prod.fst] with hidx
    have hlen : (rowMeans4 (normColumn (colOn idx m1)) (normColumn (colOn idx m2))
        (normColumn (colOn idx m3)) (normColumn (colOn idx m4))).length = idx.length := by
      rw [rowMeans4_length] <;> simp [normColumn, colOn]
    have hmp := (insSortBy_perm (fun (a b : String × PF) => pfGt a.2 b.2)
      (idx.zip (rowMeans4 (normColumn (colOn idx m1)) (normColumn (colOn idx m2))
        (normColumn (colOn idx m3)) (normColumn (colOn idx m4))))).map Prod.fst
    rw [List.map_fst_zip _ _ (le_of_eq hlen.symm)] at hmp
    exact hmp

/-- C7 counterexample: with key sets `{a}` and `{a, b}` the aggregator does
not raise; it returns a consensus series over the union `["a", "b"]` (the
estimator missing `b` is aligned with `NaN` and skipped by the mean). -/
theorem consensus_keyset_mismatch_counterexample :
    consensusSorted [("a", 1)] [("a", 0), ("b", 1)] [("a", 0), ("b", 1)]
        [("a", 0), ("b", 1)] [("a", 0), ("b", 1)] [("a", 0), ("b", 1)]
      = [("b", PF.fin 1), ("a", PF.fin 0)] := by
  have halign : alignIndex [List.map Prod.fst [("a", (1:ℚ))],
      List.map Prod.fst [("a", (0:ℚ)), ("b", 1)], List.map Prod.fst [("a", (0:ℚ)), ("b", 1)],
      List.map Prod.fst [("a", (0:ℚ)), ("b", 1)], List.map Prod.fst [("a", (0:ℚ)), ("b", 1)],
      List.map Prod.fst [("a", (0:ℚ)), ("b", 1)]] = ["a", "b"] := by
    simp only [List.map_cons, List.map_nil]
    simp [alignIndex, List.insertionSort, List.orderedInsert, List.dedup_cons_of_mem,
      List.dedup_cons_of_not_mem]
    decide
  have hcol1 : colOn ["a", "b"] [("a", (1:ℚ))] = [PF.fin 1, PF.nan] := by decide
  have hcol2 : colOn ["a", "b"] [("a", (0:ℚ)), ("b", 1)] = [PF.fin 0, PF.fin 1] := by decide
  have hnorm1 : normColumn [PF.fin 1, PF.nan] = [PF.nan, PF.nan] := by
    norm_num [normColumn, pfMin, pfMax, finVals, listMin, listMax,
      List.filterMap_cons, List.filterMap_nil, List.foldl_cons, List.foldl_nil,
      PF.sub, PF.div]
  have hnorm2 : normColumn [PF.fin 0, PF.fin 1] = [PF.fin 0, PF.fin 1] := by
    norm_num [normColumn, pfMin, pfMax, finVals, listMin, listMax,
      List.filterMap_cons, List.filterMap_nil, List.foldl_cons, List.foldl_nil,
      PF.sub, PF.div]
  have hrow : rowMeans4 [PF.nan, PF.nan] [PF.fin 0, PF.fin 1] [PF.fin 0, PF.fin 1]
      [PF.fin 0, PF.fin 1] = [PF.fin 0, PF.fin 1] := by
    norm_num [rowMeans4, pfMean, finVals, listMeanQ,
      List.filterMap_cons, List.filterMap_nil, List.sum_cons, List.sum_nil]
    simp
  have hsort : insSortBy (fun (a b : String × PF) => pfGt a.2 b.2)
      [("a", PF.fin 0), ("b", PF.fin 1)] = [("b", PF.fin 1), ("a", PF.fin 0)] := by
    decide
  unfold consensusSorted
  rw [halign]
  simp only []
  rw [hcol1, hcol2, hnorm1, hnorm2, hrow]
  have hz : (["a", "b"].zip [PF.fin 0, PF.fin 1]) = [("a", PF.fin 0), ("b", PF.fin 1)] := rfl
  rw [hz, hsort]

/-- C7 witness: the no-validation theorem applied to the concrete mismatched
key sets `{a}` and `{a, b}`. -/
theorem consensus_no_keyset_validation_witness :
    ((consensusSorted [("a", 1)] [("a", 0), ("b", 1)] [("a", 0), ("b", 1)]
        [("a", 0), ("b", 1)] [("a", 0), ("b", 1)] [("a", 0), ("b", 1)]).map
          Prod.fst).Perm
      (alignIndex [List.map Prod.fst [("a", (1:ℚ))],
        List.map Prod.fst [("a", (0:ℚ)), ("b", 1)],
        List.map Prod.fst [("a", (0:ℚ)), ("b", 1)],
        List.map Prod.fst [("a", (0:ℚ)), ("b", 1)],
        List.map Prod.fst [("a", (0:ℚ)), ("b", 1)],
        List.map Prod.fst [("a", (0:ℚ)), ("b", 1)]]) :=
  (consensus_no_keyset_validation [("a", 1)] [("a", 0), ("b", 1)] [("a", 0), ("b", 1)]
    [("a", 0), ("b", 1)] [("a", 0), ("b", 1)] [("a", 0), ("b", 1)]
    (by decide)).2.2.2.2.2

/-- One row of the notebook's dataframe `df` after encoding: `smoker` is
already mapped to `{0,1}`; only the columns the risk-threshold deriver
reads are carried. -/
structure InsRecord where
  age : ℚ
  bmi : ℚ
  smoker : ℚ
  children : ℚ
  charges : ℚ
  deriving DecidableEq, Repr

/-- pandas `Series.quantile(q)` (default linear interpolation): sort
ascending, take `h = q*(n-1)`, and interpolate between the floor and
ceiling positions. -/
def quantileQ (q : ℚ) (xs : List ℚ) : ℚ :=
  let s := List.insertionSort (fun a b : ℚ => a ≤ b) xs
  let h : ℚ := q * ((s.length : ℚ) - 1)
  let i : ℕ := (⌊h⌋ : ℤ).toNat
  match s.get? i, s.get? (i + 1) with
  | some a, some b => a + (h - ⌊h⌋) * (b - a)
  | some a, none => a
  | none, _ => 0

/-- The notebook's `pc1_thresh = pca_df['PC1'].quantile(0.95)`. -/
def pc1Thresh (pc1 : List ℚ) : ℚ := quantileQ (95 / 100) pc1

/-- The notebook's `high_pc1 = df[pca_df['PC1'] > pc1_thresh]`: the records
whose PC1 score is strictly above the 95th percentile. -/
def highPc1 (records : List InsRecord) (pc1 : List ℚ) : List InsRecord :=
  ((records.zip pc1).filter (fun p => pc1Thresh pc1 < p.2)).map Prod.fst

/-- pandas `Series.mean()` over a (possibly empty) selected subpopulation:
`NaN` when the selection is empty, otherwise the exact mean. -/
def meanPF (l : List ℚ) : PF :=
  if l = [] then PF.nan else PF.fin (listMeanQ l)

/-- The threshold recommendations the notebook prints from the high-PC1
profile: mean age, mean BMI, majority smoker class
(`'yes' if high_pc1['smoker'].mean() > 0.5 else 'no'`; a `NaN` mean
compares false), and the group's average charges. -/
structure RiskProfile where
  thresh : ℚ
  ageCut : PF
  bmiCut : PF
  smokerYes : Bool
  avgCharges : PF
  deriving Repr

/-- The risk-threshold deriver of the notebook's PCA-extremes cell. -/
def deriveProfile (records : List InsRecord) (pc1 : List ℚ) : RiskProfile :=
  let sel := highPc1 records pc1
  { thresh := pc1Thresh pc1
    ageCut := meanPF (sel.map InsRecord.age)
    bmiCut := meanPF (sel.map InsRecord.bmi)
    smokerYes := match meanPF (sel.map InsRecord.smoker) with
      | PF.fin q => decide ((1 : ℚ) / 2 < q)
      | _ => false
    avgCharges := meanPF (sel.map InsRecord.charges) }

/-- The notebook's final high-risk rule:
`(df['age'] > 50) & (df['bmi'] > 35) & (df['smoker'] == 1) & (df['children'] < 3)`. -/
def highRiskMask (r : InsRecord) : Bool :=
  (decide ((50 : ℚ) < r.age)) && (decide ((35 : ℚ) < r.bmi))
    && (decide (r.smoker = 1)) && (decide (r.children < (3 : ℚ)))

/-- C4 (confirmed): the deriver takes the 95th percentile of the PC1
scores, selects exactly the rows strictly above it, recommends the
selection's mean age and mean BMI as cutoffs and the majority class for the
boolean smoker column, and the final rule flags a record as high-risk iff
`age > 50` and `bmi > 35` and `smoker = 1` and `children < 3` all hold. -/
theorem risk_threshold_deriver_correct (records : List InsRecord) (pc1 : List ℚ) :
    (deriveProfile records pc1).thresh = quantileQ (95 / 100) pc1
    ∧ (∀ p : InsRecord × ℚ,
        p ∈ (records.zip pc1).filter (fun p => pc1Thresh pc1 < p.2)
        ↔ p ∈ records.zip pc1 ∧ pc1Thresh pc1 < p.2)
    ∧ (deriveProfile records pc1).ageCut
        = meanPF ((highPc1 records pc1).map InsRecord.age)
    ∧ (deriveProfile records pc1).bmiCut
        = meanPF ((highPc1 records pc1).map InsRecord.bmi)
    ∧ ((deriveProfile records pc1).smokerYes = true
        ↔ ∃ q : ℚ, meanPF ((highPc1 records pc1).map InsRecord.smoker) = PF.fin q
            ∧ 1 / 2 < q)
    ∧ (∀ r : InsRecord, highRiskMask r = true
        ↔ (50 < r.age ∧ 35 < r.bmi ∧ r.smoker = 1 ∧ r.children < 3)) := by
  refine ⟨rfl, ?_, rfl, rfl, ?_, ?_⟩
  · intro p
    constructor
    · intro hp
      rcases List.mem_filter.mp hp with ⟨h1, h2⟩
      exact ⟨h1, by simpa using h2⟩
    · intro ⟨h1, h2⟩
      exact List.mem_filter.mpr ⟨h1, by simpa using h2⟩
  · show (match meanPF ((highPc1 records pc1).map InsRecord.smoker) with
      | PF.fin q => decide ((1 : ℚ) / 2 < q)
      | _ => false) = true ↔ _
    cases hm : meanPF ((highPc1 records pc1).map InsRecord.smoker) with
    | fin q =>
      simp only [decide_eq_true_eq]
      constructor
      · intro h; exact ⟨q, rfl, h⟩
      · intro ⟨q', hq', hlt⟩
        cases hq'
        exact hlt
    | nan => simp
    | pinf => simp
    | ninf => simp
  · intro r
    simp [highRiskMask, and_assoc]

theorem length_insSort (xs : List ℚ) :
    (List.insertionSort (fun a b : ℚ => a ≤ b) xs).length = xs.length :=
  (List.perm_insertionSort _ xs).length_eq

theorem pc1Thresh_ge_getElem (pc1 : List ℚ)
    (i : ℕ) (hi : i = (⌊(95 / 100 : ℚ) * ((pc1.length : ℚ) - 1)⌋).toNat)
    (hilen : i < (List.insertionSort (fun a b : ℚ => a ≤ b) pc1).length) :
    (List.insertionSort (fun a b : ℚ => a ≤ b) pc1)[i] ≤ pc1Thresh pc1 := by
  have hsorted : (List.insertionSort (fun a b : ℚ => a ≤ b) pc1).Sorted (· ≤ ·) :=
    List.sorted_insertionSort _ pc1
  set s := List.insertionSort (fun a b : ℚ => a ≤ b) pc1 with hs
  have hslen : s.length = pc1.length := length_insSort pc1
  show s[i] ≤ pc1Thresh pc1
  unfold pc1Thresh quantileQ
  rw [← hs]
  simp only []
  rw [hslen]
  have hget : s.get? i = some s[i] := List.get?_eq_get (by exact hilen)
  have hfl : (⌊(95 / 100 : ℚ) * ((pc1.length : ℚ) - 1)⌋ : ℚ)
      ≤ (95 / 100 : ℚ) * ((pc1.length : ℚ) - 1) := Int.floor_le _
  rw [← hi, hget]
  cases hget2 : s.get? (i + 1) with
  | none => simp
  | some b =>
    simp only []
    have hlt1 : i + 1 < s.length := (List.get?_eq_some.mp hget2).1
    have hb : b = s.get ⟨i + 1, hlt1⟩ := by
      rcases List.get?_eq_some.mp hget2 with ⟨hlt, hval⟩
      simp [← hval]
    have hab : s[i] ≤ b := by
      rw [hb]
      exact (List.pairwise_iff_getElem.mp hsorted) i (i + 1) hilen hlt1
        (Nat.lt_succ_self i)
    have hg : (0 : ℚ) ≤ (95 / 100 : ℚ) * ((pc1.length : ℚ) - 1)
        - ⌊(95 / 100 : ℚ) * ((pc1.length : ℚ) - 1)⌋ := by linarith
    nlinarith [mul_nonneg hg (by linarith : (0 : ℚ) ≤ b - s[i])]

theorem countP_sorted_above (s : List ℚ) (hsorted : s.Sorted (· ≤ ·))
    (i : ℕ) (hilen : i < s.length) (q : ℚ) (hq : s[i] ≤ q) :
    s.countP (fun x => decide (q < x)) ≤ s.length - (i + 1) := by
  conv_lhs => rw [← List.take_append_drop (i + 1) s]
  rw [List.countP_append]
  have htake : (s.take (i + 1)).countP (fun x => decide (q < x)) = 0 := by
    rw [List.countP_eq_zero]
    intro a ha
    rcases List.mem_iff_getElem.mp ha with ⟨j, hj, hja⟩
    have hj' : j < s.length := lt_of_lt_of_le hj (by
      rw [List.length_take]; exact min_le_right _ _)
    have hjs : (s.take (i + 1))[j] = s.get ⟨j, hj'⟩ := List.getElem_take s
    have hji : j ≤ i := by
      have : j < min (i + 1) s.length := by rwa [List.length_take] at hj
      omega
    have hle : s.get ⟨j, hj'⟩ ≤ s[i] := by
      rcases lt_or_eq_of_le hji with h | h
      · exact (List.pairwise_iff_getElem.mp hsorted) j i hj' hilen h
      · subst h; exact le_refl _
    rw [← hja, hjs]
    simp only [decide_eq_true_eq]
    push_neg
    linarith
  rw [htake, Nat.zero_add]
  calc (s.drop (i + 1)).countP (fun x => decide (q < x))
      ≤ (s.drop (i + 1)).length := List.countP_le_length _
    _ = s.length - (i + 1) := List.length_drop _ _


theorem get_opt_replicate (n m : ℕ) (a : ℚ) :
    (List.replicate n a).get? m = if m < n then some a else none := by
  rcases Nat.lt_or_ge m n with h | h
  · rw [if_pos h, List.get?_eq_get (by simpa using h)]
    simp
  · rw [if_neg (by omega), List.get?_eq_none.mpr (by simpa using h)]

theorem insSort_replicate (n : ℕ) (c : ℚ) :
    List.insertionSort (fun a b : ℚ => a ≤ b) (List.replicate n c)
      = List.replicate n c := by
  apply List.eq_replicate_iff.mpr
  refine ⟨by rw [length_insSort, List.length_replicate], ?_⟩
  intro b hb
  have : b ∈ List.replicate n c :=
    (List.perm_insertionSort _ _).mem_iff.mp hb
  exact List.eq_of_mem_replicate this

theorem pc1Thresh_replicate (n : ℕ) (c : ℚ) (hn : 0 < n) :
    pc1Thresh (List.replicate n c) = c := by
  unfold pc1Thresh quantileQ
  rw [insSort_replicate]
  simp only [List.length_replicate]
  have hF0 : (0:ℤ) ≤ ⌊(95 / 100 : ℚ) * ((n : ℚ) - 1)⌋ := by
    apply Int.floor_nonneg.mpr
    have : (1 : ℚ) ≤ (n : ℚ) := by exact_mod_cast hn
    nlinarith
  have hFlt : ⌊(95 / 100 : ℚ) * ((n : ℚ) - 1)⌋ ≤ (n : ℤ) - 1 := by
    have h1 : (95 / 100 : ℚ) * ((n : ℚ) - 1) ≤ (n : ℚ) - 1 := by
      have : (1 : ℚ) ≤ (n : ℚ) := by exact_mod_cast hn
      nlinarith
    calc ⌊(95 / 100 : ℚ) * ((n : ℚ) - 1)⌋
        ≤ ⌊(n : ℚ) - 1⌋ := Int.floor_le_floor h1
      _ = (n : ℤ) - 1 := by
          rw [show ((n : ℚ) - 1) = (((n : ℤ) - 1 : ℤ) : ℚ) by push_cast; ring]
          exact Int.floor_intCast _
  have hi : (⌊(95 / 100 : ℚ) * ((n : ℚ) - 1)⌋).toNat < n := by omega
  rw [get_opt_replicate, get_opt_replicate, if_pos hi]
  rcases Nat.lt_or_ge ((⌊(95 / 100 : ℚ) * ((n : ℚ) - 1)⌋).toNat + 1) n with h2 | h2
  · rw [if_pos h2]
    ring
  · rw [if_neg (by omega)]

/-- C10 (amended): the strictly-above-the-95th-percentile selection
contains at most `⌈(n-1)/20⌉` records (which, for small `n`, can exceed 5%
of `n`); and when every record has the same PC1 score the selection is
empty, so the derived age/BMI cutoffs and the group's average charges are
pandas means over an empty frame, i.e. `NaN`, with no guard in the code. -/
theorem highPc1_bound_and_degenerate (records : List InsRecord) (pc1 : List ℚ)
    (hne : pc1 ≠ []) (hlen : records.length = pc1.length) :
    (((highPc1 records pc1).length : ℤ) ≤ ⌈(((pc1.length : ℚ) - 1) / 20)⌉)
    ∧ (∀ c : ℚ, pc1 = List.replicate pc1.length c →
        highPc1 records pc1 = []
        ∧ (deriveProfile records pc1).ageCut = PF.nan
        ∧ (deriveProfile records pc1).bmiCut = PF.nan
        ∧ (deriveProfile records pc1).avgCharges = PF.nan
        ∧ (deriveProfile records pc1).smokerYes = false) := by
  have hn : 0 < pc1.length := List.length_pos.mpr hne
  constructor
  · set s := List.insertionSort (fun a b : ℚ => a ≤ b) pc1 with hs
    have hsorted : s.Sorted (· ≤ ·) := List.sorted_insertionSort _ pc1
    have hperm : s.Perm pc1 := List.perm_insertionSort _ pc1
    have hslen : s.length = pc1.length := hperm.length_eq
    set F := ⌊(95 / 100 : ℚ) * ((pc1.length : ℚ) - 1)⌋ with hF
    have hF0 : 0 ≤ F := by
      rw [hF]
      apply Int.floor_nonneg.mpr
      have : (1 : ℚ) ≤ (pc1.length : ℚ) := by exact_mod_cast hn
      nlinarith
    have hFlt : F ≤ (pc1.length : ℤ) - 1 := by
      rw [hF]
      have h1 : (95 / 100 : ℚ) * ((pc1.length : ℚ) - 1) ≤ (pc1.length : ℚ) - 1 := by
        have : (1 : ℚ) ≤ (pc1.length : ℚ) := by exact_mod_cast hn
        nlinarith
      calc ⌊(95 / 100 : ℚ) * ((pc1.length : ℚ) - 1)⌋
          ≤ ⌊(pc1.length : ℚ) - 1⌋ := Int.floor_le_floor h1
        _ = (pc1.length : ℤ) - 1 := by
            rw [show ((pc1.length : ℚ) - 1) = (((pc1.length : ℤ) - 1 : ℤ) : ℚ) by push_cast; ring]
            exact Int.floor_intCast _
    have hilen : F.toNat < s.length := by
      rw [hslen]; omega
    have hthresh := pc1Thresh_ge_getElem pc1 F.toNat (by rw [hF]) hilen
    have hcount : (highPc1 records pc1).length
        = pc1.countP (fun x => decide (pc1Thresh pc1 < x)) := by
      unfold highPc1
      rw [List.length_map, ← List.countP_eq_length_filter]
      have hzip : (records.zip pc1).map Prod.snd = pc1 :=
        List.map_snd_zip _ _ (le_of_eq hlen.symm)
      calc (records.zip pc1).countP (fun p => decide (pc1Thresh pc1 < p.2))
          = ((records.zip pc1).map Prod.snd).countP (fun x => decide (pc1Thresh pc1 < x)) := by
            rw [List.countP_map]; rfl
        _ = pc1.countP (fun x => decide (pc1Thresh pc1 < x)) := by rw [hzip]
    have hbound : pc1.countP (fun x => decide (pc1Thresh pc1 < x))
        ≤ s.length - (F.toNat + 1) := by
      rw [← hperm.countP_eq]
      exact countP_sorted_above s hsorted F.toNat hilen (pc1Thresh pc1) hthresh
    have hceil : F = ((pc1.length : ℤ) - 1) - ⌈(((pc1.length : ℚ) - 1) / 20)⌉ := by
      rw [hF]
      have hsplit : (95 / 100 : ℚ) * ((pc1.length : ℚ) - 1)
          = -(((pc1.length : ℚ) - 1) / 20) + (((pc1.length : ℤ) - 1 : ℤ) : ℚ) := by
        push_cast; ring
      rw [hsplit, Int.floor_add_int, Int.floor_neg]
      ring
    omega
  · intro c hc
    have hsel : highPc1 records pc1 = [] := by
      unfold highPc1
      rw [List.map_eq_nil_iff, List.filter_eq_nil_iff]
      intro p hp
      have hp2 : p.2 ∈ pc1 := by
        rcases p with ⟨r, x⟩
        exact (List.of_mem_zip hp).2
      have hp2c : p.2 = c := by
        rw [hc] at hp2
        exact List.eq_of_mem_replicate hp2
      have hcle : c ≤ pc1Thresh pc1 := by
        conv_rhs => rw [hc]
        rw [pc1Thresh_replicate pc1.length c hn]
      rw [hp2c]
      simp only [decide_eq_true_eq]
      push_neg
      exact hcle
    refine ⟨hsel, ?_, ?_, ?_, ?_⟩
    · show meanPF ((highPc1 records pc1).map InsRecord.age) = PF.nan
      rw [hsel]; rfl
    · show meanPF ((highPc1 records pc1).map InsRecord.bmi) = PF.nan
      rw [hsel]; rfl
    · show meanPF ((highPc1 records pc1).map InsRecord.charges) = PF.nan
      rw [hsel]; rfl
    · show (match meanPF ((highPc1 records pc1).map InsRecord.smoker) with
        | PF.fin q => decide ((1 : ℚ) / 2 < q)
        | _ => false) = false
      rw [hsel]
      rfl

/-- C10 counterexample: with 10 records holding distinct PC1 scores
`1..10`, the strictly-above-the-95th-percentile selection contains exactly
one record — 10% of the population, refuting the claimed "at most 5%". -/
theorem highPc1_five_percent_counterexample :
    (highPc1 (List.replicate 10 (InsRecord.mk 40 30 0 0 1000))
        [1, 2, 3, 4, 5, 6, 7, 8, 9, 10]).length = 1
    ∧ ¬ (((highPc1 (List.replicate 10 (InsRecord.mk 40 30 0 0 1000))
        [1, 2, 3, 4, 5, 6, 7, 8, 9, 10]).length : ℚ) ≤ 5 / 100 * 10) := by
  have hsort : List.insertionSort (fun a b : ℚ => a ≤ b)
      [1, 2, 3, 4, 5, 6, 7, 8, 9, 10] = [1, 2, 3, 4, 5, 6, 7, 8, 9, 10] := by decide
  have hfl : ⌊(95 / 100 : ℚ) * ((10 : ℚ) - 1)⌋ = 8 := by
    rw [Int.floor_eq_iff]
    norm_num
  have hthr : pc1Thresh [1, 2, 3, 4, 5, 6, 7, 8, 9, 10] = 191 / 20 := by
    unfold pc1Thresh quantileQ
    rw [hsort]
    simp only [List.length_cons, List.length_nil]
    norm_num [hfl, List.getElem_cons_succ, List.getElem_cons_zero]
    show (9 : ℚ) + 11 / 20 * ((10 : ℚ) - 9) = 191 / 20
    norm_num
  have hlen : (highPc1 (List.replicate 10 (InsRecord.mk 40 30 0 0 1000))
      [1, 2, 3, 4, 5, 6, 7, 8, 9, 10]).length = 1 := by
    unfold highPc1
    rw [hthr]
    norm_num [List.filter_cons, List.filter_nil, List.replicate_succ,
      List.zip_cons_cons, List.zip_nil_right, List.zip_nil_left]
  refine ⟨hlen, ?_⟩
  rw [hlen]
  norm_num

/-- C10 witness: the amended bound-and-degeneracy theorem applied to a
single record with a constant PC1 score. -/
theorem highPc1_bound_and_degenerate_witness :
    (((highPc1 [InsRecord.mk 40 30 0 0 1000] [(5 : ℚ)]).length : ℤ)
        ≤ ⌈((([(5 : ℚ)].length : ℚ) - 1) / 20)⌉)
    ∧ highPc1 [InsRecord.mk 40 30 0 0 1000] [(5 : ℚ)] = []
    ∧ (deriveProfile [InsRecord.mk 40 30 0 0 1000] [(5 : ℚ)]).ageCut = PF.nan := by
  have h := highPc1_bound_and_degenerate [InsRecord.mk 40 30 0 0 1000] [(5 : ℚ)]
    (by decide) (by decide)
  have h2 := h.2 5 (by decide)
  exact ⟨h.1, h2.1, h2.2.1⟩

/-- Mean of a constant column. -/
theorem listMeanQ_const (c : ℚ) (col : List ℚ) (hne : col ≠ [])
    (hc : ∀ x ∈ col, x = c) : listMeanQ col = c := by
  have hsum : col.sum = col.length * c := by
    induction col with
    | nil => simp
    | cons x t ih =>
      have hx : x = c := hc x (List.mem_cons_self _ _)
      by_cases ht : t = []
      · subst ht; simp [hx]
      · rw [List.sum_cons, ih ht (fun z hz => hc z (List.mem_cons_of_mem _ hz)), hx]
        simp only [List.length_cons]
        push_cast
        ring
  have hlen : (col.length : ℚ) ≠ 0 := by
    have := List.length_pos.mpr hne
    exact Nat.cast_ne_zero.mpr (by omega)
  rw [listMeanQ, hsum, mul_comm, mul_div_assoc, div_self hlen, mul_one]

/-- Population variance (`ddof=0`), as sklearn's `StandardScaler` uses. -/
def popVar (col : List ℚ) : ℚ :=
  ((col.map (fun x => (x - listMeanQ col) ^ 2)).sum) / col.length

/-- Sample variance (`ddof=1`), as pandas `Series.std()` uses. -/
def sampVar (col : List ℚ) : ℚ :=
  ((col.map (fun x => (x - listMeanQ col) ^ 2)).sum) / ((col.length : ℚ) - 1)

/-- One column of sklearn `StandardScaler().fit_transform(X)`: center by the
mean and divide by the scale `sqrt(population variance)`, where sklearn's
`_handle_zeros_in_scale` replaces a zero scale by `1` (for the real square
root, `sqrt(v) = 0` iff `v = 0`, so the check is placed on the variance).
`sq` stands for the real square root, which is irrational on most
rationals; `ratSqrt` below realizes it exactly at perfect squares. -/
def scalerTransformCol (sq : ℚ → ℚ) (col : List ℚ) : List ℚ :=
  col.map (fun x => (x - listMeanQ col)
    / (if popVar col = 0 then 1 else sq (popVar col)))

/-- One column of the notebook's regression-stage standardization
`X_standardized = (X - X.mean()) / X.std()` (pandas sample std, `ddof=1`):
a constant column has std `0` and every entry becomes `0/0 = NaN`. -/
def pandasStdCol (sq : ℚ → ℚ) (col : List ℚ) : List PF :=
  col.map (fun x => PF.div (PF.fin (x - listMeanQ col)) (PF.fin (sq (sampVar col))))

/-- `sm.add_constant`: prepend an all-ones intercept column to the design
columns. -/
def addConst (cols : List (List PF)) (n : ℕ) : List (List PF) :=
  List.replicate n (PF.fin 1) :: cols

/-- Exact rational square root: the nonnegative rational root when the
argument is a perfect rational square, `0` otherwise.  It agrees with the
real square root at every perfect square — in particular `ratSqrt 0 = 0`
and `ratSqrt 1 = 1`, the only points the concrete theorems evaluate. -/
def ratSqrt (q : ℚ) : ℚ :=
  let r : ℚ := (Nat.sqrt q.num.toNat : ℚ) / (Nat.sqrt q.den : ℚ)
  if r * r = q then r else 0

theorem ratSqrt_zero : ratSqrt 0 = 0 := by
  unfold ratSqrt
  norm_num

theorem ratSqrt_one : ratSqrt 1 = 1 := by
  unfold ratSqrt
  norm_num

theorem popVar_const (c : ℚ) (col : List ℚ) (hne : col ≠ [])
    (hc : ∀ x ∈ col, x = c) : popVar col = 0 := by
  unfold popVar
  rw [listMeanQ_const c col hne hc]
  have : col.map (fun x => (x - c) ^ 2) = List.replicate col.length 0 := by
    rw [List.eq_replicate_iff]
    refine ⟨by simp, ?_⟩
    intro b hb
    rcases List.mem_map.mp hb with ⟨x, hx, hbx⟩
    rw [← hbx, hc x hx]
    ring
  rw [this, List.sum_replicate]
  simp

theorem sampVar_const (c : ℚ) (col : List ℚ) (hne : col ≠ [])
    (hc : ∀ x ∈ col, x = c) : sampVar col = 0 := by
  unfold sampVar
  rw [listMeanQ_const c col hne hc]
  have : col.map (fun x => (x - c) ^ 2) = List.replicate col.length 0 := by
    rw [List.eq_replicate_iff]
    refine ⟨by simp, ?_⟩
    intro b hb
    rcases List.mem_map.mp hb with ⟨x, hx, hbx⟩
    rw [← hbx, hc x hx]
    ring
  rw [this, List.sum_replicate]
  simp

/-- C6 (corrected): an exactly-constant column does not raise anywhere.
sklearn's stage-1 `StandardScaler` silently maps it to all zeros (zero
scale replaced by 1), so the PCA input carries no NaN; but the
regression-stage pandas standardization `(X - X.mean()) / X.std()` turns
the same column into all-`NaN` (0/0), and that NaN sits inside the
intercept-augmented OLS design matrix. -/
theorem constant_column_standardization (sq : ℚ → ℚ) (hsq0 : sq 0 = 0)
    (col : List ℚ) (c : ℚ) (hne : col ≠ []) (hc : ∀ x ∈ col, x = c) :
    scalerTransformCol sq col = List.replicate col.length 0
    ∧ pandasStdCol sq col = List.replicate col.length PF.nan
    ∧ PF.nan ∈ (addConst [pandasStdCol sq col] col.length).flatten := by
  have hmean := listMeanQ_const c col hne hc
  have hpv := popVar_const c col hne hc
  have hsv := sampVar_const c col hne hc
  have h1 : scalerTransformCol sq col = List.replicate col.length 0 := by
    unfold scalerTransformCol
    rw [hmean, hpv, if_pos rfl]
    rw [List.eq_replicate_iff]
    refine ⟨by simp, ?_⟩
    intro b hb
    rcases List.mem_map.mp hb with ⟨x, hx, hbx⟩
    rw [← hbx, hc x hx]
    ring
  have h2 : pandasStdCol sq col = List.replicate col.length PF.nan := by
    unfold pandasStdCol
    rw [hmean, hsv, hsq0]
    rw [List.eq_replicate_iff]
    refine ⟨by simp, ?_⟩
    intro b hb
    rcases List.mem_map.mp hb with ⟨x, hx, hbx⟩
    rw [← hbx, hc x hx]
    simp [PF.div]
  refine ⟨h1, h2, ?_⟩
  rw [h2]
  unfold addConst
  rw [List.flatten]
  apply List.mem_append_right
  rw [List.flatten]
  apply List.mem_append_left
  apply List.mem_replicate.mpr
  have := List.length_pos.mpr hne
  exact ⟨by omega, rfl⟩

/-- C6 counterexample: on the concrete constant column `[1, 1, 1]` the
stage-1 scaler returns `[0, 0, 0]` (no DataError, silently zeroed) and the
regression-stage standardization returns `[NaN, NaN, NaN]`, which
propagates into the OLS design. -/
theorem constant_column_no_dataerror_counterexample :
    scalerTransformCol ratSqrt [1, 1, 1] = [0, 0, 0]
    ∧ pandasStdCol ratSqrt [1, 1, 1] = [PF.nan, PF.nan, PF.nan]
    ∧ PF.nan ∈ (addConst [pandasStdCol ratSqrt [1, 1, 1]] 3).flatten := by
  have h := constant_column_standardization ratSqrt ratSqrt_zero [1, 1, 1] 1
    (by decide) (by norm_num)
  refine ⟨?_, ?_, ?_⟩
  · rw [h.1]; rfl
  · rw [h.2.1]; rfl
  · have h3 := h.2.2
    have hl : ([(1:ℚ), 1, 1]).length = 3 := rfl
    rw [hl] at h3
    exact h3

/-- C6 witness: the constant-column theorem applied to `[2, 2]`. -/
theorem constant_column_standardization_witness :
    scalerTransformCol ratSqrt [2, 2] = List.replicate 2 0
    ∧ pandasStdCol ratSqrt [2, 2] = List.replicate 2 PF.nan := by
  have h := constant_column_standardization ratSqrt ratSqrt_zero [2, 2] 2
    (by decide) (by norm_num)
  exact ⟨h.1, h.2.1⟩

/-- The ordinary-least-squares normal equations `XᵀX β = Xᵀy`:
`sm.OLS(y, X).fit().params` is their solution (unique when `XᵀX` is
invertible). -/
def IsOLSFit {m k : ℕ} (X : Matrix (Fin m) (Fin k) ℚ) (y : Fin m → ℚ)
    (β : Fin k → ℚ) : Prop :=
  (X.transpose * X).mulVec β = X.transpose.mulVec y

/-- `a` sorts strictly before `b` under `sort_values('importance', key=abs,
ascending=False)`. -/
def absGtQ (a b : ℚ) : Bool := decide (|b| < |a|)

/-- The notebook's `coef_importance` frame: rows keyed
`'const' :: feature_names`, carrying the signed fitted coefficient as
`importance` together with its p-value, sorted descending by absolute
importance. -/
def coefImportance (fs : List String) (params pvals : List ℚ) :
    List (String × ℚ × ℚ) :=
  insSortBy (fun a b => absGtQ a.2.1 b.2.1) (("const" :: fs).zip (params.zip pvals))

/-- C5 (corrected): `coef_importance` keeps the intercept row `'const'` as
an extra key, and the importance recorded for each feature is the signed
fitted coefficient itself (the frame is merely sorted by absolute value),
with the p-value attached. -/
theorem coef_importance_signed_with_const (fs : List String) (params pvals : List ℚ)
    (hp : params.length = fs.length + 1) (hv : pvals.length = fs.length + 1) :
    ((coefImportance fs params pvals).map Prod.fst).Perm ("const" :: fs)
    ∧ (∀ i (hi : i < fs.length + 1) (hpi : i < params.length) (hvi : i < pvals.length),
        (("const" :: fs)[i], params[i], pvals[i]) ∈ coefImportance fs params pvals) := by
  have hzlen : (params.zip pvals).length = fs.length + 1 := by
    rw [List.length_zip, hp, hv, min_self]
  constructor
  · have hperm := (insSortBy_perm (fun (a b : String × ℚ × ℚ) => absGtQ a.2.1 b.2.1)
      (("const" :: fs).zip (params.zip pvals))).map Prod.fst
    rw [List.map_fst_zip _ _ (by rw [hzlen]; simp)] at hperm
    exact hperm
  · intro i hi hpi hvi
    have hiz : i < (("const" :: fs).zip (params.zip pvals)).length := by
      rw [List.length_zip, hzlen]
      simp only [List.length_cons]
      omega
    refine (insSortBy_perm _ _).mem_iff.mpr ?_
    have hprod : i < (params.zip pvals).length := by rw [hzlen]; exact hi
    have h1 : (("const" :: fs).zip (params.zip pvals))[i]
        = (("const" :: fs)[i], (params.zip pvals).get ⟨i, hprod⟩) :=
      List.getElem_zip
    have h2 : (params.zip pvals).get ⟨i, hprod⟩ = (params[i], pvals[i]) :=
      List.getElem_zip
    rw [← h2, ← h1]
    exact List.getElem_mem hiz

/-- C5 counterexample: standardizing `x = [1,2,3]` (mean 2, sample std 1)
gives `[-1, 0, 1]`; with `y = [3,2,1]` the unique OLS fit on the
intercept-augmented design is `const = 2`, `coef_x = -1` (the inverse of
`XᵀX` certifies uniqueness); the `coef_importance` frame then stores the
signed value `-1` — not `|-1| = 1` — and carries the extra key `'const'`. -/
theorem coef_importance_abs_counterexample :
    pandasStdCol ratSqrt [1, 2, 3] = [PF.fin (-1), PF.fin 0, PF.fin 1]
    ∧ IsOLSFit !![(1 : ℚ), -1; 1, 0; 1, 1] ![3, 2, 1] ![2, -1]
    ∧ !![(1 : ℚ)/3, 0; 0, 1/2]
        * ((!![(1 : ℚ), -1; 1, 0; 1, 1]).transpose * !![(1 : ℚ), -1; 1, 0; 1, 1]) = 1
    ∧ coefImportance ["x"] [2, -1] [0, 0] = [("const", 2, 0), ("x", -1, 0)]
    ∧ (-1 : ℚ) ≠ |(-1 : ℚ)|
    ∧ "const" ∈ (coefImportance ["x"] [2, -1] [0, 0]).map Prod.fst := by
  have hm : listMeanQ [1, 2, 3] = 2 := by norm_num [listMeanQ]
  have hs : sampVar [1, 2, 3] = 1 := by norm_num [sampVar, listMeanQ]
  have hstd : pandasStdCol ratSqrt [1, 2, 3] = [PF.fin (-1), PF.fin 0, PF.fin 1] := by
    unfold pandasStdCol
    rw [hm, hs, ratSqrt_one]
    norm_num [PF.div]
  have hcoef : coefImportance ["x"] [2, -1] [0, 0] = [("const", 2, 0), ("x", -1, 0)] := by
    show insSortBy _ [("const", (2 : ℚ), (0 : ℚ)), ("x", -1, 0)] = _
    norm_num [insSortBy, insSortedInto, absGtQ]
  refine ⟨hstd, ?_, ?_, hcoef, by norm_num, ?_⟩
  · unfold IsOLSFit
    funext i
    fin_cases i <;>
      simp [Matrix.mulVec, Matrix.dotProduct, Matrix.mul_apply, Matrix.transpose_apply,
        Fin.sum_univ_succ, Matrix.cons_val_zero, Matrix.cons_val_one, Matrix.head_cons] <;>
      norm_num
  · funext i j
    fin_cases i <;> fin_cases j <;>
      simp [Matrix.mul_apply, Fin.sum_univ_succ, Matrix.transpose_apply, Matrix.one_apply,
        Matrix.cons_val_zero, Matrix.cons_val_one, Matrix.head_cons] <;>
      norm_num
  · rw [hcoef]
    simp

/-- C5 witness: the amended coef-importance theorem applied to the concrete
one-feature fit of the counterexample. -/
theorem coef_importance_signed_with_const_witness :
    ((coefImportance ["x"] [2, -1] [0, 0]).map Prod.fst).Perm ("const" :: ["x"])
    ∧ (("x", (-1 : ℚ), (0 : ℚ)) ∈ coefImportance ["x"] [2, -1] [0, 0]) := by
  have h := coef_importance_signed_with_const ["x"] [2, -1] [0, 0]
    (by decide) (by decide)
  refine ⟨h.1, ?_⟩
  have h2 := h.2 1 (by norm_num) (by norm_num) (by norm_num)
  simpa using h2

/-- Modelled from the spec: substituting a coalition of the record's own
feature values into a background record (the interventional coalition
semantics of cooperative attribution; the `shap` library's TreeExplainer
implementing it is not part of this repository's source). -/
def combineOn {n : ℕ} (x b : Fin n → ℚ) (S : Finset (Fin n)) : Fin n → ℚ :=
  fun i => if i ∈ S then x i else b i

/-- Modelled from the spec: the cooperative game underlying the SHAP
attribution of record `x` — the value of a coalition `S` is the mean model
prediction over the background records `B` with the features in `S` fixed
to `x`'s values. -/
def shapGame {n : ℕ} (f : (Fin n → ℚ) → ℚ) (B : List (Fin n → ℚ))
    (x : Fin n → ℚ) (S : Finset (Fin n)) : ℚ :=
  ((B.map (fun b => f (combineOn x b S))).sum) / B.length

/-- The baseline (expected) prediction over the background records. -/
def baselinePred {n : ℕ} (f : (Fin n → ℚ) → ℚ) (B : List (Fin n → ℚ)) : ℚ :=
  ((B.map f).sum) / B.length

/-- The marginal contribution of player `i` when the players join in the
order of the list `l`. -/
def margOf {n : ℕ} (v : Finset (Fin n) → ℚ) (l : List (Fin n)) (i : Fin n) : ℚ :=
  v (insert i (l.takeWhile (fun j => j != i)).toFinset)
    - v ((l.takeWhile (fun j => j != i)).toFinset)

/-- Modelled from the spec: the Shapley attribution of feature `i` for
record `x` — the average, over all feature orderings, of `i`'s marginal
contribution to the game. -/
def shapAttr {n : ℕ} (f : (Fin n → ℚ) → ℚ) (B : List (Fin n → ℚ))
    (x : Fin n → ℚ) (i : Fin n) : ℚ :=
  (((List.finRange n).permutations.map
      (fun l => margOf (shapGame f B x) l i)).sum) / (n.factorial)

/-- The notebook's global importance
`np.abs(shap_values).mean(axis=0)`: mean absolute attribution per feature
across the held-out rows. -/
def shapImportance {n : ℕ} (rows : List (Fin n → ℚ)) (j : Fin n) : ℚ :=
  ((rows.map (fun r => |r j|)).sum) / rows.length

theorem margOf_telescope {n : ℕ} (v : Finset (Fin n) → ℚ) :
    ∀ (l : List (Fin n)), l.Nodup → ∀ (S : Finset (Fin n)), (∀ i ∈ l, i ∉ S) →
    (l.map (fun i => v (insert i (S ∪ (l.takeWhile (fun j => j != i)).toFinset))
      - v (S ∪ (l.takeWhile (fun j => j != i)).toFinset))).sum
    = v (S ∪ l.toFinset) - v S := by
  intro l
  induction l with
  | nil =>
    intro _ S _
    simp
  | cons a t ih =>
    intro hnd S hS
    rcases List.nodup_cons.mp hnd with ⟨hat, hnd'⟩
    rw [List.map_cons, List.sum_cons]
    have hhead : (List.takeWhile (fun j => j != a) (a :: t)) = [] := by
      simp [List.takeWhile_cons]
    have htail : ∀ i ∈ t,
        (v (insert i (S ∪ ((a :: t).takeWhile (fun j => j != i)).toFinset))
          - v (S ∪ ((a :: t).takeWhile (fun j => j != i)).toFinset))
        = (v (insert i ((insert a S) ∪ (t.takeWhile (fun j => j != i)).toFinset))
          - v ((insert a S) ∪ (t.takeWhile (fun j => j != i)).toFinset)) := by
      intro i hi
      have hia : a ≠ i := fun he => hat (he ▸ hi)
      have hpre : (a :: t).takeWhile (fun j => j != i)
          = a :: t.takeWhile (fun j => j != i) := by
        simp [List.takeWhile_cons, hia]
      rw [hpre]
      have hins : S ∪ (a :: t.takeWhile (fun j => j != i)).toFinset
          = (insert a S) ∪ (t.takeWhile (fun j => j != i)).toFinset := by
        rw [List.toFinset_cons, Finset.union_insert, Finset.insert_union]
      rw [hins]
    rw [List.map_congr_left htail]
    have hS' : ∀ i ∈ t, i ∉ insert a S := by
      intro i hi
      rw [Finset.mem_insert]
      push_neg
      exact ⟨fun he => hat (he ▸ hi), hS i (List.mem_cons_of_mem _ hi)⟩
    rw [ih hnd' (insert a S) hS']
    rw [hhead]
    have h1 : S ∪ ([] : List (Fin n)).toFinset = S := by simp
    rw [h1]
    have h2 : insert a S ∪ t.toFinset = S ∪ (a :: t).toFinset := by
      rw [List.toFinset_cons, Finset.union_insert, Finset.insert_union]
    rw [h2]
    ring

theorem margOf_sum_univ {n : ℕ} (v : Finset (Fin n) → ℚ) (l : List (Fin n))
    (hl : l.Perm (List.finRange n)) :
    ∑ i : Fin n, margOf v l i = v Finset.univ - v ∅ := by
  have hnd : l.Nodup := hl.nodup_iff.mpr (List.nodup_finRange n)
  have huniv : l.toFinset = Finset.univ := by
    apply Finset.eq_univ_iff_forall.mpr
    intro i
    rw [List.mem_toFinset]
    exact hl.mem_iff.mpr (List.mem_finRange i)
  have hsum := margOf_telescope v l hnd ∅ (by intro i _; exact Finset.not_mem_empty i)
  simp only [Finset.empty_union] at hsum
  rw [huniv] at hsum
  calc ∑ i : Fin n, margOf v l i
      = l.toFinset.sum (margOf v l) := by rw [huniv]
    _ = (l.map (margOf v l)).sum := List.sum_toFinset _ hnd
    _ = v Finset.univ - v ∅ := by
        rw [← hsum]
        rfl

theorem sum_map_finsetSum {α γ : Type} (L : List α) (s : Finset γ) (g : α → γ → ℚ) :
    (L.map (fun a => ∑ c ∈ s, g a c)).sum = ∑ c ∈ s, (L.map (fun a => g a c)).sum := by
  induction L with
  | nil => simp
  | cons a t ih =>
    simp only [List.map_cons, List.sum_cons]
    rw [ih, ← Finset.sum_add_distrib]

theorem shapAttr_sum {n : ℕ} (f : (Fin n → ℚ) → ℚ) (B : List (Fin n → ℚ))
    (hB : B ≠ []) (x : Fin n → ℚ) :
    ∑ i : Fin n, shapAttr f B x i = f x - baselinePred f B := by
  have hlenB : (B.length : ℚ) ≠ 0 := by
    have := List.length_pos.mpr hB
    exact Nat.cast_ne_zero.mpr (by omega)
  have hfact : ((n.factorial : ℚ)) ≠ 0 := by
    exact_mod_cast Nat.factorial_ne_zero n
  have hUniv : shapGame f B x Finset.univ = f x := by
    unfold shapGame
    have hcomb : ∀ b : Fin n → ℚ, combineOn x b Finset.univ = x := by
      intro b; funext i; simp [combineOn]
    simp only [hcomb]
    rw [List.map_const', List.sum_replicate, nsmul_eq_mul, mul_comm,
      mul_div_assoc, div_self hlenB, mul_one]
  have hEmpty : shapGame f B x ∅ = baselinePred f B := by
    unfold shapGame baselinePred
    have hcomb : ∀ b : Fin n → ℚ, combineOn x b ∅ = b := by
      intro b; funext i; simp [combineOn]
    simp only [hcomb]
  unfold shapAttr
  rw [← Finset.sum_div]
  rw [← sum_map_finsetSum]
  have hconst : ∀ l ∈ (List.finRange n).permutations,
      (∑ i : Fin n, margOf (shapGame f B x) l i) = f x - baselinePred f B := by
    intro l hl
    rw [margOf_sum_univ (shapGame f B x) l (List.mem_permutations.mp hl)]
    rw [hUniv, hEmpty]
  rw [List.map_congr_left hconst]
  rw [List.map_const', List.sum_replicate, List.length_permutations,
    List.length_finRange, nsmul_eq_mul, mul_comm, mul_div_assoc,
    div_self hfact, mul_one]

/-- C3 (confirmed; the attribution computation is modelled from the spec,
the `shap` library not being repository source): per record, the Shapley
attributions sum exactly to the model's prediction minus the mean baseline
prediction, and the notebook's global importance is the mean absolute
attribution per feature across the held-out rows. -/
theorem shap_additivity_and_importance {n : ℕ} (f : (Fin n → ℚ) → ℚ)
    (B xs : List (Fin n → ℚ)) (hB : B ≠ []) :
    (∀ x : Fin n → ℚ, ∑ i : Fin n, shapAttr f B x i = f x - baselinePred f B)
    ∧ (∀ j : Fin n,
        shapImportance (xs.map (fun x i => shapAttr f B x i)) j
          = ((xs.map (fun x => |shapAttr f B x j|)).sum) / xs.length) := by
  refine ⟨fun x => shapAttr_sum f B hB x, ?_⟩
  intro j
  unfold shapImportance
  rw [List.map_map, List.length_map]
  rfl

/-- C3 witness: the additivity theorem applied to a concrete linear model
on two features with one background record. -/
theorem shap_additivity_and_importance_witness :
    ∑ i : Fin 2, shapAttr (fun v => v 0 + 2 * v 1) [![0, 0]] ![1, 3] i
      = (fun v : Fin 2 → ℚ => v 0 + 2 * v 1) ![1, 3]
        - baselinePred (fun v => v 0 + 2 * v 1) [![0, 0]] :=
  (shap_additivity_and_importance (fun v => v 0 + 2 * v 1) [![0, 0]] []
    (by simp)).1 ![1, 3]
